import Mathlib

/-! Track query layer of AliceVision (`aliceVision/track/Track.hpp`)

A shallow embedding of the data model of `Track.hpp` and of the inline
members of `TracksUtilsMap`, followed by theorems about them.  The members
that `Track.hpp` only declares (`TracksBuilder::Build`,
`TracksBuilder::Filter`, `computeTracksPerView`, `GetCommonTracksInImages`)
are modelled from the specification, and `main` of `main_GlobalSfM.cpp` is
embedded as a function of its options and of the results of the calls it
makes.

Conventions of the embedding:

* `stl::flat_map<std::size_t, V>` is the list of its entries in iteration
  order; `FlatMap.WF` states the container invariant (keys strictly
  ascending, hence unique).
* `std::set<std::size_t>` is the list of its elements in iteration order;
  `StdSet.WF` states the container invariant (strictly ascending).
* `std::map<std::size_t, std::size_t>` is, like `flat_map`, the list of its
  entries in iteration order.
* `std::vector<T>` is `List T`.
* `std::size_t` values are natural numbers; the one place where the code
  does arithmetic on them (`+= 1` in `TracksLength`) wraps at `SIZE_MOD`.
* An out-parameter becomes an argument (the prior content) and a result.
* An `assert` is checked only in a build that does not define `NDEBUG`;
  whether the build defines it is a parameter of the function.
* The union-find forest of `TracksBuilder` is `Batteries.UnionFind` (path
  compression, union by rank) over the positions of a table of node keys.
-/

namespace aliceVision
namespace track

/-! ## Containers -/

/-- Number of values of `std::size_t` (64-bit target). -/
def SIZE_MOD : Nat := 2 ^ 64

/-- Entries of a `stl::flat_map<std::size_t, V>` in iteration order. -/
abbrev FlatMap (V : Type) := List (Nat × V)

namespace FlatMap

/-- Container invariant of a flat map: keys strictly ascending. -/
def WF {V : Type} (m : FlatMap V) : Prop :=
  List.Pairwise (fun a b => a.1 < b.1) m

instance {V : Type} (m : FlatMap V) : Decidable (WF m) := by
  unfold WF; infer_instance

/-- The member `find(k)`: the mapped value of the entry with key `k`, or
`none` for `end()`. -/
def find {V : Type} : FlatMap V → Nat → Option V
  | [], _ => none
  | (k', v) :: rest, k => if k' = k then some v else find rest k

/-- The member `size()`. -/
def size {V : Type} (m : FlatMap V) : Nat := m.length

end FlatMap

/-- Elements of a `std::set<std::size_t>` in iteration order. -/
abbrev StdSet := List Nat

namespace StdSet

/-- Container invariant of a set: elements strictly ascending. -/
def WF (s : StdSet) : Prop := List.Pairwise (fun a b => a < b) s

instance (s : StdSet) : Decidable (WF s) := by
  unfold WF; infer_instance

/-- The member `clear()`. -/
def clear (_s : StdSet) : StdSet := []

/-- The member `insert(x)`: `x` is placed at its position in the order
unless an equal element is already present. -/
def insert (x : Nat) : StdSet → StdSet
  | [] => [x]
  | y :: ys =>
    if x < y then x :: y :: ys
    else if x = y then y :: ys
    else y :: insert x ys

/-- The range member `insert(first, last)`. -/
def insertRange (xs : List Nat) (s : StdSet) : StdSet :=
  xs.foldl (fun acc x => insert x acc) s

end StdSet

/-! ## Data model -/

/-- Modelled from the spec: `feature::EImageDescriberType` is declared in
`aliceVision/feature/imageDescriberCommon.hpp`, which is not part of the
sources at hand.  The spec calls it a tagged enumeration; an enumeration is
compared (`==`, `<`) through its underlying integer value, which is what
this type holds. -/
abbrev EImageDescriberType := Nat

/-- The struct `Track`: a descriptor type and the map view id -> feature id. -/
structure Track where
  descType : EImageDescriberType
  featPerView : FlatMap Nat
deriving DecidableEq, Repr

/-- The typedef `TracksMap`: track id -> `Track`. -/
abbrev TracksMap := FlatMap Track

/-- The typedef `TrackIdSet` (a vector of track ids). -/
abbrev TrackIdSet := List Nat

/-- The typedef `TracksPerView`: view id -> ids of the tracks visible there. -/
abbrev TracksPerView := FlatMap TrackIdSet

/-- The struct `KeypointId`. -/
structure KeypointId where
  descType : EImageDescriberType
  featIndex : Nat
deriving DecidableEq, Repr

/-- `KeypointId::operator<`. -/
def KeypointId.lt (self other : KeypointId) : Bool :=
  if self.descType = other.descType then decide (self.featIndex < other.featIndex)
  else decide (self.descType < other.descType)

/-- The typedef `TracksBuilder::IndexedFeaturePair`: `std::pair` of a view id
and a `KeypointId`. -/
abbrev IndexedFeaturePair := Nat × KeypointId

/-- `operator<` of `std::pair`:
`x.first < y.first || (!(y.first < x.first) && x.second < y.second)`, with
`KeypointId::operator<` on the second members. -/
def IndexedFeaturePair.lt (x y : IndexedFeaturePair) : Bool :=
  decide (x.1 < y.1) || (!decide (y.1 < x.1) && KeypointId.lt x.2 y.2)

/-- Modelled from the spec: `IndexT` is declared in `aliceVision/types.hpp`,
which is not part of the sources at hand (upstream it is `uint32_t`).  Its
width in bits is the parameter `w`; converting a `std::size_t` to `IndexT`
keeps the value modulo `2 ^ w`. -/
def toIndexT (w : Nat) (x : Nat) : Nat := x % 2 ^ w

/-- Modelled from the spec: `matching::IndMatch` is declared in
`aliceVision/matching/IndMatch.hpp`, which is not part of the sources at
hand.  The spec has `IndMatch = (FeatureIndex_a, FeatureIndex_b)`; both
members are `IndexT`. -/
abbrev IndMatch := Nat × Nat

/-- Both members of a match are values of an `IndexT` of `w` bits. -/
def IndMatch.fits (w : Nat) (m : IndMatch) : Prop := m.1 < 2 ^ w ∧ m.2 < 2 ^ w

instance (w : Nat) (m : IndMatch) : Decidable (IndMatch.fits w m) := by
  unfold IndMatch.fits; infer_instance

/-- The member `clear()` of a `std::vector`. -/
def StdVector.clear {T : Type} (_v : List T) : List T := []

/-- The typedef `TracksUtilsMap::FeatureId`. -/
abbrev FeatureId := EImageDescriberType × Nat

/-- Ways in which a call does not return to its caller. -/
inductive Failure where
  /-- An `assert` did not hold in a build that checks it: the program is
  aborted. -/
  | assertionFailed
  /-- The `end()` iterator of a container was dereferenced. -/
  | endDereferenced
deriving DecidableEq, Repr

/-- Entries of a `std::map<std::size_t, std::size_t>`: the statement
`m[k] = v`, which replaces the value of the entry with key `k` or adds the
entry at its position in the key order. -/
def StdMap.assign (k v : Nat) : FlatMap Nat → FlatMap Nat
  | [] => [(k, v)]
  | (k', v') :: rest =>
    if k < k' then (k, v) :: (k', v') :: rest
    else if k = k' then (k', v) :: rest
    else (k', v') :: StdMap.assign k v rest

/-! ## `TracksUtilsMap` -/

namespace TracksUtilsMap

/-- `GetTracksInImage`: the ids of the tracks of one image.  The last
argument is the prior content of the out-parameter. -/
def GetTracksInImage (imageIndex : Nat) (map_tracks : TracksMap)
    (set_tracksIds : StdSet) : StdSet :=
  map_tracks.foldl
    (fun acc track =>
      match FlatMap.find track.2.featPerView imageIndex with
      | some _ => StdSet.insert track.1 acc
      | none => acc)
    (StdSet.clear set_tracksIds)

/-- `GetTracksInImageFast`: when the view has no entry the function returns
before touching the out-parameter; otherwise the out-parameter is cleared
and filled from the view's list. -/
def GetTracksInImageFast (imageId : Nat) (map_tracksPerView : TracksPerView)
    (set_tracksIds : StdSet) : StdSet :=
  match FlatMap.find map_tracksPerView imageId with
  | none => set_tracksIds
  | some imageTracks => StdSet.insertRange imageTracks (StdSet.clear set_tracksIds)

/-- `GetTracksIdVector`: the track ids as a set. -/
def GetTracksIdVector (map_tracks : TracksMap) (set_tracksIds : StdSet) : StdSet :=
  map_tracks.foldl (fun acc iterT => StdSet.insert iterT.1 acc)
    (StdSet.clear set_tracksIds)

/-- `GetFeatureIdInViewPerTrack`: the body of the loop over `trackIds`,
threading the out-vector. -/
def GetFeatureIdInViewPerTrack.loop (allTracks : TracksMap) (viewId : Nat) :
    List Nat → List FeatureId → List FeatureId
  | [], out_featId => out_featId
  | trackId :: rest, out_featId =>
    match FlatMap.find allTracks trackId with
    | none => loop allTracks viewId rest out_featId
    | some map_ref =>
      match FlatMap.find map_ref.featPerView viewId with
      | some feat =>
        loop allTracks viewId rest (out_featId ++ [(map_ref.descType, feat)])
      | none => loop allTracks viewId rest out_featId

/-- `GetFeatureIdInViewPerTrack`: returns the flag `!out_featId->empty()`
together with the final content of the out-vector. -/
def GetFeatureIdInViewPerTrack (allTracks : TracksMap) (trackIds : StdSet)
    (viewId : Nat) (out_featId : List FeatureId) : Bool × List FeatureId :=
  let out := GetFeatureIdInViewPerTrack.loop allTracks viewId trackIds out_featId
  (!out.isEmpty, out)

/-- `std::find_if(map_tracks.begin(), map_tracks.end(), FunctorMapFirstEqual(id))`:
the first entry whose key equals `id`, or `none` for `end()`. -/
def find_if_FunctorMapFirstEqual (id : Nat) : TracksMap → Option (Nat × Track)
  | [] => none
  | val :: rest =>
    if id = val.1 then some val else find_if_FunctorMapFirstEqual id rest

/-- `TracksToIndexedMatches`: the loop over `vec_filterIndex`.  The function
is `void` and its only check is `assert(map_ref.featPerView.size() == 2)`:
`NDEBUG` tells whether the build defines the macro `NDEBUG`.  Without it a
violated `assert` aborts the program (`Failure.assertionFailed`: the call
does not return); with it the `assert` is no code at all and the loop goes
on to read the first two entries.  Reading through the `end()` iterator (a
filter id that is no key of the map, or a first or second entry that does
not exist) has no defined result and is `Failure.endDereferenced`. -/
def TracksToIndexedMatches.loop (w : Nat) (NDEBUG : Bool) (map_tracks : TracksMap) :
    List Nat → List IndMatch → Except Failure (List IndMatch)
  | [], vec_indexref => Except.ok vec_indexref
  | id :: rest, vec_indexref =>
    match find_if_FunctorMapFirstEqual id map_tracks with
    | none => Except.error Failure.endDereferenced
    | some itF =>
      let map_ref := itF.2
      if NDEBUG = false ∧ FlatMap.size map_ref.featPerView ≠ 2 then
        Except.error Failure.assertionFailed
      else
        match map_ref.featPerView with
        | first :: second :: _ =>
          loop w NDEBUG map_tracks rest
            (vec_indexref ++ [(toIndexT w first.2, toIndexT w second.2)])
        | _ => Except.error Failure.endDereferenced

/-- `TracksToIndexedMatches`; `w` is the width of `IndexT` in bits, `NDEBUG`
tells whether the build defines `NDEBUG`, and the last argument is the prior
content of the out-vector. -/
def TracksToIndexedMatches (w : Nat) (NDEBUG : Bool) (map_tracks : TracksMap)
    (vec_filterIndex : List Nat) (pvec_index : List IndMatch) :
    Except Failure (List IndMatch) :=
  TracksToIndexedMatches.loop w NDEBUG map_tracks vec_filterIndex
    (StdVector.clear pvec_index)

/-- `TracksLength`: the body of the loop, for the track at `iterT`.  A
length not yet in the map gets the count 1, a length already there gets
`+= 1` (in `std::size_t` arithmetic). -/
def TracksLength.step (map_Occurence_TrackLength : FlatMap Nat) (iterT : Nat × Track) :
    FlatMap Nat :=
  let trLength := FlatMap.size iterT.2.featPerView
  match FlatMap.find map_Occurence_TrackLength trLength with
  | none => StdMap.assign trLength 1 map_Occurence_TrackLength
  | some c => StdMap.assign trLength ((c + 1) % SIZE_MOD) map_Occurence_TrackLength

/-- `TracksLength`: one more occurrence of each track's length. -/
def TracksLength (map_tracks : TracksMap) (map_Occurence_TrackLength : FlatMap Nat) :
    FlatMap Nat :=
  map_tracks.foldl TracksLength.step map_Occurence_TrackLength

/-- `ImageIdInTracks` on a `TracksPerView`. -/
def ImageIdInTracksPerView (map_tracksPerView : TracksPerView)
    (set_imagesId : StdSet) : StdSet :=
  map_tracksPerView.foldl (fun acc viewTracks => StdSet.insert viewTracks.1 acc)
    set_imagesId

/-- `ImageIdInTracks` on a `TracksMap`. -/
def ImageIdInTracks (map_tracks : TracksMap) (set_imagesId : StdSet) : StdSet :=
  map_tracks.foldl
    (fun acc iterT =>
      iterT.2.featPerView.foldl (fun acc2 iter => StdSet.insert iter.1 acc2) acc)
    set_imagesId

end TracksUtilsMap

/-! ## Reference definitions used in statements -/

/-- Two-view tracks over the views `a` and `b` rebuilt from a sequence of
matches: the `k`-th match `(i, j)` becomes track `start + k` with the
features `a -> i`, `b -> j`. -/
def twoViewTracksFrom (d : EImageDescriberType) (a b : Nat) :
    Nat → List IndMatch → TracksMap
  | _, [] => []
  | start, m :: ms =>
    (start, { descType := d, featPerView := [(a, m.1), (b, m.2)] })
      :: twoViewTracksFrom d a b (start + 1) ms

/-- Two-view tracks numbered from `0`. -/
def twoViewTracks (d : EImageDescriberType) (a b : Nat) (ms : List IndMatch) :
    TracksMap :=
  twoViewTracksFrom d a b 0 ms

/-- The feature id that the track with id `t` contributes in view `v`:
its descriptor type and its feature in `v`, when `t` is a key of the map and
the track has an entry for `v`. -/
def featureIdInView (allTracks : TracksMap) (v : Nat) (t : Nat) : Option FeatureId :=
  (FlatMap.find allTracks t).bind
    (fun tr => (FlatMap.find tr.featPerView v).map (fun f => (tr.descType, f)))

/-- Number of tracks of length `L`. -/
def countLength (tracks : TracksMap) (L : Nat) : Nat :=
  (tracks.filter (fun e => decide (FlatMap.size e.2.featPerView = L))).length

/-- Every track id is unique and every track's feature map is well formed. -/
def TracksMap.WF (tracks : TracksMap) : Prop :=
  FlatMap.WF tracks ∧ ∀ e ∈ tracks, FlatMap.WF e.2.featPerView

instance (tracks : TracksMap) : Decidable (TracksMap.WF tracks) := by
  unfold TracksMap.WF; infer_instance

/-! ## Per-view index and common tracks -/

/-- Modelled from the spec: the statement `perView[v].push_back(t)` of
`computeTracksPerView`, whose body is not part of the sources at hand
("append TrackId to perView[ViewId]").  An absent view gets a new entry at
its position in the key order. -/
def TracksPerView.pushBack (v t : Nat) : TracksPerView → TracksPerView
  | [] => [(v, [t])]
  | (v', ids) :: rest =>
    if v < v' then (v, [t]) :: (v', ids) :: rest
    else if v = v' then (v', ids ++ [t]) :: rest
    else (v', ids) :: TracksPerView.pushBack v t rest

/-- Modelled from the spec: the last phase of `computeTracksPerView`, whose
body is not part of the sources at hand ("each perView[v] is sorted ascending
and de-duplicated"). -/
def sortDedup (ids : TrackIdSet) : TrackIdSet :=
  (ids.insertionSort (fun a b => a ≤ b)).dedup

/-- The list `perView[v]`, empty when the view has no entry. -/
def TracksPerView.tracksOf (perView : TracksPerView) (v : Nat) : TrackIdSet :=
  (FlatMap.find perView v).getD []

/-- Modelled from the spec: the sweep-merge of `commonTracksInImages` on a
per-view index, whose body is not part of the sources at hand ("sweep-merge
and keep only common elements").  This is the sweep for a fixed head `x` of
the first list over the second list; `recXs` continues with the tail of the
first list. -/
def sweepMergeAux (x : Nat) (recXs : List Nat → List Nat) : List Nat → List Nat
  | [] => []
  | y :: ys =>
    if x < y then recXs (y :: ys)
    else if x = y then x :: recXs ys
    else sweepMergeAux x recXs ys

/-- Modelled from the spec: the sweep-merge of two ascending lists that keeps
only the common elements (see `sweepMergeAux`). -/
def sweepMerge : List Nat → List Nat → List Nat
  | [] => fun _ => []
  | x :: xs => sweepMergeAux x (sweepMerge xs)

namespace TracksUtilsMap

/-- Modelled from the spec: `computeTracksPerView` is only declared in
`Track.hpp`.  The spec: "for each Track, for each ViewId in its featPerView,
append TrackId to perView[ViewId]".  This is the population phase, from the
index `acc`. -/
def computeTracksPerView.populate (map_tracks : TracksMap) (acc : TracksPerView) :
    TracksPerView :=
  map_tracks.foldl
    (fun acc1 track =>
      track.2.featPerView.foldl
        (fun acc2 feat => TracksPerView.pushBack feat.1 track.1 acc2) acc1)
    acc

/-- Modelled from the spec: `computeTracksPerView` is only declared in
`Track.hpp`.  The spec: `computeTracksPerView(tracks) → perView`, population
followed by "After population, each perView[v] is sorted ascending and
de-duplicated". -/
def computeTracksPerView (map_tracks : TracksMap) : TracksPerView :=
  (computeTracksPerView.populate map_tracks []).map (fun e => (e.1, sortDedup e.2))

/-- Modelled from the spec: `GetCommonTracksInImages` on a `TracksMap` is only
declared in `Track.hpp`.  The spec: "the subset of tracks whose featPerView
domain is a superset of S. A track qualifies iff it has an entry for every v
in S." -/
def GetCommonTracksInImages (set_imageIndex : StdSet) (map_tracksIn : TracksMap) :
    TracksMap :=
  map_tracksIn.filter
    (fun track => set_imageIndex.all
      (fun v => (FlatMap.find track.2.featPerView v).isSome))

/-- Modelled from the spec: the choice "start with the shortest perView[v] as
the candidate set"; `none` when the set of views is empty. -/
def GetCommonTracksInImagesPerView.shortest (perView : TracksPerView) :
    List Nat → Option Nat
  | [] => none
  | v :: rest =>
    match GetCommonTracksInImagesPerView.shortest perView rest with
    | none => some v
    | some u =>
      if (TracksPerView.tracksOf perView v).length
          ≤ (TracksPerView.tracksOf perView u).length then some v
      else some u

/-- Modelled from the spec: `GetCommonTracksInImages` on a `TracksPerView` is
only declared in `Track.hpp`.  The spec:
"commonTracksInImages(set S, perView) → set of TrackId", "start with the
shortest perView[v] as the candidate set; for each other v in S, sweep-merge
and keep only common elements."  The result is the candidate set at the end;
with an empty `S` no list is ever taken as candidate set and the result is
the empty set. -/
def GetCommonTracksInImagesPerView (set_imageIndex : StdSet)
    (map_tracksPerView : TracksPerView) : StdSet :=
  match GetCommonTracksInImagesPerView.shortest map_tracksPerView set_imageIndex with
  | none => []
  | some v0 =>
    (set_imageIndex.filter (fun v => decide (v ≠ v0))).foldl
      (fun candidates v =>
        sweepMerge candidates (TracksPerView.tracksOf map_tracksPerView v))
      (TracksPerView.tracksOf map_tracksPerView v0)

end TracksUtilsMap

/-- The id `t` is listed for the view `v` in the per-view index. -/
def TracksPerView.listed (perView : TracksPerView) (v t : Nat) : Prop :=
  ∃ ids, FlatMap.find perView v = some ids ∧ t ∈ ids

/-! ## `TracksBuilder` -/

/-- Modelled from the spec: `PairwiseMatches` is declared in
`aliceVision/matching/IndMatch.hpp`, which is not part of the sources at
hand.  The spec: "mapping from (ViewId_a, ViewId_b, DescriptorKind) to a
sequence of IndMatch"; here the entries of the mapping in iteration order. -/
abbrev PairwiseMatches := List ((Nat × Nat × EImageDescriberType) × List IndMatch)

/-- Modelled from the spec: the reasons for which `build` fails, the error
kind MalformedInput of the spec ("build fails if any pair has v_a == v_b or
if a pair's matches reference an uninitialised DescriptorKind"). -/
inductive BuildError where
  /-- A pair has `v_a == v_b`. -/
  | selfPair
  /-- The matches of a pair reference the uninitialised descriptor kind. -/
  | uninitialisedKind
deriving DecidableEq, Repr

/-- Modelled from the spec: the state of the struct `TracksBuilder`.  The
source keeps a lemon graph, a node map and a lemon `UnionFindEnum`, none of
which is part of the sources at hand; the spec describes the forest as "a
dense NodeKey→index table plus a flat union-find array" with "classical
union-find with path compression on find and union-by-rank".  `nodes` is the
side table (the handle of a node key is its position), `tracksUF` the
union-find forest over the handles, and `erased` holds the representatives
of the classes that `Filter` has removed. -/
structure TracksBuilder where
  /-- The node keys in the order of their first sight. -/
  nodes : List IndexedFeaturePair
  /-- The union-find forest over the handles. -/
  tracksUF : Batteries.UnionFind
  /-- The representatives of the removed classes. -/
  erased : List Nat

namespace TracksBuilder

/-- Modelled from the spec: the forest before `build`, without a node. -/
def empty : TracksBuilder :=
  { nodes := [], tracksUF := Batteries.UnionFind.empty, erased := [] }

/-- Modelled from the spec: the side table "NodeKey → dense index": the
position of the first occurrence of `key`, the length of the list when `key`
is absent. -/
def handleOf (key : IndexedFeaturePair) : List IndexedFeaturePair → Nat
  | [] => 0
  | k :: rest => if k = key then 0 else handleOf key rest + 1

/-- Modelled from the spec: "`insert(key) → handle` (idempotent: returns
existing handle if present)"; a key seen for the first time gets a new entry
of the forest. -/
def insert (tb : TracksBuilder) (key : IndexedFeaturePair) : TracksBuilder × Nat :=
  if key ∈ tb.nodes then (tb, handleOf key tb.nodes)
  else
    ({ tb with nodes := tb.nodes ++ [key], tracksUF := tb.tracksUF.push },
     tb.nodes.length)

/-- Modelled from the spec: "`union(handle_a, handle_b)`" on two handles of
the forest. -/
def union (tb : TracksBuilder) (a b : Nat) : TracksBuilder :=
  if h : a < tb.tracksUF.size ∧ b < tb.tracksUF.size then
    { tb with tracksUF := tb.tracksUF.union ⟨a, h.1⟩ ⟨b, h.2⟩ }
  else tb

/-- Modelled from the spec: the ingestion of one correspondence by `build`:
"insert both (idempotent); union their handles". -/
def addMatch (tb : TracksBuilder) (keyA keyB : IndexedFeaturePair) : TracksBuilder :=
  let r1 := tb.insert keyA
  let r2 := r1.1.insert keyB
  r2.1.union r1.2 r2.2

/-- Modelled from the spec: `TracksBuilder::Build` is only declared in
`Track.hpp`.  The spec: "ingest all correspondences. For each pair
(v_a, v_b, kind) and each IndMatch (i, j): construct NodeKey_a = (v_a, kind,
i) and NodeKey_b = (v_b, kind, j); insert both (idempotent); union their
handles. Returns ok unless the input is malformed", and "malformed inputs
abort the build phase entirely without partial results".  `uninit` is the
value of the uninitialised descriptor kind. -/
def Build (uninit : EImageDescriberType) (pairwiseMatches : PairwiseMatches) :
    Except BuildError TracksBuilder :=
  if pairwiseMatches.any (fun pair => decide (pair.1.1 = pair.1.2.1)) then
    Except.error BuildError.selfPair
  else if pairwiseMatches.any
      (fun pair => decide (pair.1.2.2 = uninit) && !pair.2.isEmpty) then
    Except.error BuildError.uninitialisedKind
  else
    Except.ok (pairwiseMatches.foldl
      (fun tb pair =>
        pair.2.foldl
          (fun tb1 m =>
            tb1.addMatch (pair.1.1, KeypointId.mk pair.1.2.2 m.1)
              (pair.1.2.1, KeypointId.mk pair.1.2.2 m.2))
          tb)
      TracksBuilder.empty)

/-- Modelled from the spec: the representatives of the current classes, for
the "`classes()` enumerator": the handles that are their own root and whose
class has not been removed. -/
def roots (tb : TracksBuilder) : List Nat :=
  (List.range tb.nodes.length).filter
    (fun r => decide (tb.tracksUF.rootD r = r) && decide (r ∉ tb.erased))

/-- Modelled from the spec: the members of the class with representative
`r` ("iterate members of class"), in the order of the side table. -/
def members (tb : TracksBuilder) (r : Nat) : List IndexedFeaturePair :=
  tb.nodes.filter (fun key => decide (tb.tracksUF.rootD (handleOf key tb.nodes) = r))

/-- Modelled from the spec: "A `classes()` enumerator yields, for each
current class, the set of member handles"; here the member node keys. -/
def classes (tb : TracksBuilder) : List (List IndexedFeaturePair) :=
  tb.roots.map tb.members

/-- `NbTracks`: the number of classes of the union-find structure. -/
def NbTracks (tb : TracksBuilder) : Nat :=
  tb.classes.length

/-- The node keys `u` and `v` are nodes of the forest and in the same
current class. -/
def sameClass (tb : TracksBuilder) (u v : IndexedFeaturePair) : Prop :=
  u ∈ tb.nodes ∧ v ∈ tb.nodes
    ∧ tb.tracksUF.rootD (handleOf u tb.nodes) = tb.tracksUF.rootD (handleOf v tb.nodes)
    ∧ tb.tracksUF.rootD (handleOf u tb.nodes) ∉ tb.erased

instance (tb : TracksBuilder) (u v : IndexedFeaturePair) : Decidable (sameClass tb u v) := by
  unfold sameClass; infer_instance

/-- Modelled from the spec: the view-conflict scan of `filter`: "for each
class, scan its members and test whether any two carry the same ViewId. A
linear scan with a small local set over ViewIds suffices."  `seen` is the
local set. -/
def hasViewConflict (seen : StdSet) : List IndexedFeaturePair → Bool
  | [] => false
  | member :: rest =>
    if member.1 ∈ seen then true
    else hasViewConflict (StdSet.insert member.1 seen) rest

/-- Modelled from the spec: `TracksBuilder::Filter` is only declared in
`Track.hpp`.  The spec: "A class is removed if (a) it has fewer than
`minLength` distinct member nodes, or (b) it has two members sharing a
ViewId", "Removal deletes the entire class", and the parallel mode is "a
tuning knob with no behavioral effect". -/
def Filter (nLengthSupTo : Nat) (_bMultithread : Bool) (tb : TracksBuilder) :
    TracksBuilder :=
  let removed := tb.roots.filter
    (fun r => decide ((tb.members r).length < nLengthSupTo)
      || hasViewConflict [] (tb.members r))
  { tb with erased := tb.erased ++ removed }

end TracksBuilder

namespace PairwiseMatches

/-- The input matches as edges between node keys: the match `(i, j)` of the
pair `(v_a, v_b, kind)` is the edge `(v_a, kind, i) -- (v_b, kind, j)`. -/
def edges (G : PairwiseMatches) : List (IndexedFeaturePair × IndexedFeaturePair) :=
  G.flatMap (fun pair => pair.2.map (fun m =>
    ((pair.1.1, KeypointId.mk pair.1.2.2 m.1), (pair.1.2.1, KeypointId.mk pair.1.2.2 m.2))))

/-- The node key `u` occurs in the input: it is an end of an input match. -/
def occurs (G : PairwiseMatches) (u : IndexedFeaturePair) : Prop :=
  ∃ e ∈ edges G, u = e.1 ∨ u = e.2

/-- The node keys `u` and `v` are connected in the undirected graph whose
edges are the input matches. -/
def Connected (G : PairwiseMatches) (u v : IndexedFeaturePair) : Prop :=
  Relation.EqvGen (fun a b => (a, b) ∈ edges G) u v

/-- The input is not malformed: no pair has equal views and no pair with
matches has the uninitialised descriptor kind. -/
def WellFormed (uninit : EImageDescriberType) (G : PairwiseMatches) : Prop :=
  ∀ pair ∈ G, pair.1.1 ≠ pair.1.2.1 ∧ (pair.2 ≠ [] → pair.1.2.2 ≠ uninit)

instance (uninit : EImageDescriberType) (G : PairwiseMatches) :
    Decidable (WellFormed uninit G) := by
  unfold WellFormed; infer_instance

end PairwiseMatches

/-- The forest `tb` is what the ingestion of the edges `E` leaves: the side
table has no duplicate and holds the ends of all edges, the union-find array
has one entry per node, no class is removed, and two nodes have the same root
iff they are connected by the edges. -/
def TracksBuilder.Inv (tb : TracksBuilder)
    (E : List (IndexedFeaturePair × IndexedFeaturePair)) : Prop :=
  tb.tracksUF.size = tb.nodes.length
  ∧ tb.nodes.Nodup
  ∧ tb.erased = []
  ∧ (∀ e ∈ E, e.1 ∈ tb.nodes ∧ e.2 ∈ tb.nodes)
  ∧ (∀ u ∈ tb.nodes, ∀ v ∈ tb.nodes,
      tb.tracksUF.rootD (TracksBuilder.handleOf u tb.nodes)
          = tb.tracksUF.rootD (TracksBuilder.handleOf v tb.nodes)
        ↔ Relation.EqvGen (fun a b => (a, b) ∈ E) u v)

/-! ## The driver `main_GlobalSfM.cpp` -/

namespace GlobalSfM

/-- `EXIT_SUCCESS` of `<cstdlib>`. -/
def EXIT_SUCCESS : Nat := 0

/-- `EXIT_FAILURE` of `<cstdlib>`. -/
def EXIT_FAILURE : Nat := 1

/-- Modelled from the spec: the enumerators `ROTATION_AVERAGING_L1`,
`ROTATION_AVERAGING_L2`, `TRANSLATION_AVERAGING_L1` and
`TRANSLATION_AVERAGING_SOFTL1` are declared in the engine header, which is
not part of the sources at hand; the values are those of the usage text of
`main` ("1 -> L1 minimization", "2 -> L2 minimization (default)",
"3 -> SoftL1 minimization (default)"). -/
def ROTATION_AVERAGING_L1 : Int := 1

/-- See `ROTATION_AVERAGING_L1`. -/
def ROTATION_AVERAGING_L2 : Int := 2

/-- See `ROTATION_AVERAGING_L1`. -/
def TRANSLATION_AVERAGING_L1 : Int := 1

/-- See `ROTATION_AVERAGING_L1`. -/
def TRANSLATION_AVERAGING_SOFTL1 : Int := 3

/-- What one run of `main` gets from outside: the command line after
parsing and the results of the calls into code that is not in this file. -/
structure Run where
  /-- The argument count `argc`. -/
  argc : Nat
  /-- Whether `cmd.process(argc, argv)` throws a `std::string`. -/
  cmdProcessThrows : Bool
  /-- The value of `iRotationAveragingMethod` after parsing. -/
  iRotationAveragingMethod : Int
  /-- The value of `iTranslationAveragingMethod` after parsing. -/
  iTranslationAveragingMethod : Int
  /-- The result of `Load(sfm_data, ...)`. -/
  loadSfmData : Bool
  /-- The result of `loadFeaturesPerView(...)`. -/
  loadFeaturesPerView : Bool
  /-- The result of `matches_provider->load(...)`. -/
  loadMatches : Bool
  /-- The value of `sOutDir.empty()`. -/
  sOutDirEmpty : Bool
  /-- The result of `stlplus::folder_exists(sOutDir)`. -/
  folderExists : Bool
  /-- The result of `sfmEngine.Process()`. -/
  process : Bool
  /-- The result of `sfmEngine.Colorize()`. -/
  colorize : Bool
deriving DecidableEq, Repr

/-- The steps of `main` that act on the outside, in the order of the source. -/
inductive Step where
  /-- The usage text and the message of the exception on `std::cerr`. -/
  | printUsage
  /-- The message "Rotation averaging method is invalid". -/
  | printRotationInvalid
  /-- The message "Translation averaging method is invalid". -/
  | printTranslationInvalid
  /-- The message that the input scene cannot be read. -/
  | printCannotRead
  /-- The message "Invalid features.". -/
  | printInvalidFeatures
  /-- The message "Unable to load matches files from". -/
  | printUnableToLoadMatches
  /-- The message "It is an invalid output directory". -/
  | printInvalidOutDir
  /-- The call `stlplus::folder_create(sOutDir)`. -/
  | folderCreate
  /-- The call `sfmEngine.Process()`. -/
  | engineProcess
  /-- The call `sfmEngine.Colorize()`. -/
  | engineColorize
  /-- The message "Colorize failed!". -/
  | printColorizeFailed
  /-- The call `Generate_SfM_Report(...)`. -/
  | generateSfMReport
  /-- The call `Save` to `sOutSfMDataFilepath`. -/
  | saveSfmData
  /-- The call `Save` to `cloud_and_poses.ply`. -/
  | saveCloudAndPoses
deriving DecidableEq, Repr

/-- The part of `main` from the reconstruction step on: the steps taken
after those in `before`, and the exit code. -/
def reconstruct (r : Run) (before : List Step) : List Step × Nat :=
  if r.process then
    (before ++ [Step.engineProcess], EXIT_FAILURE)
  else
    let colorized :=
      if !r.colorize then [Step.engineColorize, Step.printColorizeFailed]
      else [Step.engineColorize]
    (before ++ [Step.engineProcess] ++ colorized
      ++ [Step.generateSfMReport, Step.saveSfmData, Step.saveCloudAndPoses],
     EXIT_SUCCESS)

/-- The function `main`: the steps it takes on the outside and its return
value. -/
def main (r : Run) : List Step × Nat :=
  if r.argc = 1 ∨ r.cmdProcessThrows = true then ([Step.printUsage], EXIT_FAILURE)
  else if r.iRotationAveragingMethod < ROTATION_AVERAGING_L1
      ∨ r.iRotationAveragingMethod > ROTATION_AVERAGING_L2 then
    ([Step.printRotationInvalid], EXIT_FAILURE)
  else if r.iTranslationAveragingMethod < TRANSLATION_AVERAGING_L1
      ∨ r.iTranslationAveragingMethod > TRANSLATION_AVERAGING_SOFTL1 then
    ([Step.printTranslationInvalid], EXIT_FAILURE)
  else if !r.loadSfmData then ([Step.printCannotRead], EXIT_FAILURE)
  else if !r.loadFeaturesPerView then ([Step.printInvalidFeatures], EXIT_FAILURE)
  else if !r.loadMatches then ([Step.printUnableToLoadMatches], EXIT_FAILURE)
  else if r.sOutDirEmpty then ([Step.printInvalidOutDir], EXIT_FAILURE)
  else if !r.folderExists then reconstruct r [Step.folderCreate]
  else reconstruct r []

/-- The run reaches the reconstruction step: none of the checks that `main`
makes before it constructs the engine stops the run.  The command line is
parsed without exception, both averaging methods are in range, the scene,
the features and the matches are loaded, and the output directory is not the
empty string. -/
def reachesReconstruction (r : Run) : Prop :=
  r.argc ≠ 1 ∧ r.cmdProcessThrows = false
  ∧ ROTATION_AVERAGING_L1 ≤ r.iRotationAveragingMethod
  ∧ r.iRotationAveragingMethod ≤ ROTATION_AVERAGING_L2
  ∧ TRANSLATION_AVERAGING_L1 ≤ r.iTranslationAveragingMethod
  ∧ r.iTranslationAveragingMethod ≤ TRANSLATION_AVERAGING_SOFTL1
  ∧ r.loadSfmData = true ∧ r.loadFeaturesPerView = true ∧ r.loadMatches = true
  ∧ r.sOutDirEmpty = false

instance (r : Run) : Decidable (reachesReconstruction r) := by
  unfold reachesReconstruction; infer_instance

end GlobalSfM

/-! ## Container lemmas -/

namespace StdSet

theorem mem_insert (a x : Nat) (s : StdSet) :
    a ∈ insert x s ↔ a = x ∨ a ∈ s := by
  induction s with
  | nil => simp [insert]
  | cons y ys ih =>
    unfold insert
    split_ifs with h1 h2
    · simp
    · subst h2; simp
    · simp only [List.mem_cons, ih]; tauto

theorem insert_wf (x : Nat) (s : StdSet) (h : WF s) : WF (insert x s) := by
  induction s with
  | nil => simp [insert, WF]
  | cons y ys ih =>
    unfold WF at h ih ⊢
    rw [List.pairwise_cons] at h
    unfold insert
    split_ifs with h1 h2
    · rw [List.pairwise_cons]
      refine ⟨?_, List.pairwise_cons.mpr h⟩
      intro b hb
      rcases List.mem_cons.mp hb with hb | hb
      · subst hb; exact h1
      · exact lt_trans h1 (h.1 b hb)
    · exact List.pairwise_cons.mpr h
    · rw [List.pairwise_cons]
      refine ⟨?_, ih h.2⟩
      intro b hb
      rcases (mem_insert b x ys).mp hb with hb | hb
      · subst hb; omega
      · exact h.1 b hb

theorem mem_insertRange (a : Nat) (xs : List Nat) (s : StdSet) :
    a ∈ insertRange xs s ↔ a ∈ xs ∨ a ∈ s := by
  unfold insertRange
  induction xs generalizing s with
  | nil => simp
  | cons x xs ih =>
    simp only [List.foldl_cons, List.mem_cons]
    rw [ih, mem_insert]; tauto

theorem insertRange_wf (xs : List Nat) (s : StdSet) (h : WF s) :
    WF (insertRange xs s) := by
  unfold insertRange
  induction xs generalizing s with
  | nil => simpa using h
  | cons x xs ih =>
    simp only [List.foldl_cons]
    exact ih _ (insert_wf x s h)

/-- Two well-formed sets with the same elements are the same list. -/
theorem ext_of_wf (s t : StdSet) (hs : WF s) (ht : WF t)
    (h : ∀ a, a ∈ s ↔ a ∈ t) : s = t := by
  apply List.eq_of_perm_of_sorted (r := fun a b => a < b) _ hs ht
  rw [List.perm_ext_iff_of_nodup]
  · exact h
  · exact List.Pairwise.imp (fun hab => ne_of_lt hab) hs
  · exact List.Pairwise.imp (fun hab => ne_of_lt hab) ht

end StdSet

namespace FlatMap

theorem find_nil {V : Type} (k : Nat) : find ([] : FlatMap V) k = none := rfl

theorem find_cons {V : Type} (k' : Nat) (v : V) (rest : FlatMap V) (k : Nat) :
    find ((k', v) :: rest) k = if k' = k then some v else find rest k := rfl

theorem find_isSome_iff {V : Type} (m : FlatMap V) (k : Nat) :
    (find m k).isSome ↔ ∃ v, (k, v) ∈ m := by
  induction m with
  | nil => simp [find]
  | cons e rest ih =>
    obtain ⟨k', v'⟩ := e
    unfold find
    split_ifs with h
    · subst h; simp
    · rw [ih]
      constructor
      · rintro ⟨v, hv⟩; exact ⟨v, List.mem_cons_of_mem _ hv⟩
      · rintro ⟨v, hv⟩
        rcases List.mem_cons.mp hv with hv | hv
        · exact absurd (congrArg Prod.fst hv).symm h
        · exact ⟨v, hv⟩

theorem find_eq_some_iff {V : Type} (m : FlatMap V) (hwf : WF m) (k : Nat) (v : V) :
    find m k = some v ↔ (k, v) ∈ m := by
  induction m with
  | nil => simp [find]
  | cons e rest ih =>
    obtain ⟨k', v'⟩ := e
    unfold WF at hwf ih
    rw [List.pairwise_cons] at hwf
    unfold find
    split_ifs with h
    · subst h
      constructor
      · intro hv; simp only [Option.some.injEq] at hv; subst hv; simp
      · intro hv
        rcases List.mem_cons.mp hv with hv | hv
        · simp only [Prod.mk.injEq] at hv; rw [hv.2]
        · exact absurd (hwf.1 _ hv) (lt_irrefl _)
    · rw [ih hwf.2]
      constructor
      · intro hv; exact List.mem_cons_of_mem _ hv
      · intro hv
        rcases List.mem_cons.mp hv with hv | hv
        · exact absurd (congrArg Prod.fst hv).symm h
        · exact hv

end FlatMap

/-! ## Single-image queries -/

namespace TracksUtilsMap

theorem mem_foldl_tracksInImage (v : Nat) (tracks : TracksMap) (acc : StdSet) (t : Nat) :
    t ∈ tracks.foldl
        (fun acc track =>
          match FlatMap.find track.2.featPerView v with
          | some _ => StdSet.insert track.1 acc
          | none => acc) acc
      ↔ t ∈ acc ∨ ∃ e ∈ tracks, e.1 = t ∧ (FlatMap.find e.2.featPerView v).isSome := by
  induction tracks generalizing acc with
  | nil => simp
  | cons e rest ih =>
    rw [List.foldl_cons, ih]
    cases hf : FlatMap.find e.2.featPerView v with
    | none =>
      simp only [List.mem_cons, exists_eq_or_imp, hf, Option.isSome_none]
      simp
    | some f =>
      have hsym : t = e.1 ↔ e.1 = t := eq_comm
      simp only [List.mem_cons, exists_eq_or_imp, hf, Option.isSome_some,
        StdSet.mem_insert, hsym, and_true]
      tauto

theorem wf_foldl_tracksInImage (v : Nat) (tracks : TracksMap) (acc : StdSet)
    (h : StdSet.WF acc) :
    StdSet.WF (tracks.foldl
        (fun acc track =>
          match FlatMap.find track.2.featPerView v with
          | some _ => StdSet.insert track.1 acc
          | none => acc) acc) := by
  induction tracks generalizing acc with
  | nil => simpa using h
  | cons e rest ih =>
    rw [List.foldl_cons]
    apply ih
    cases hf : FlatMap.find e.2.featPerView v with
    | none => exact h
    | some f => exact StdSet.insert_wf _ _ h

/-- Claim C1.  For a track map (keys strictly ascending), every view `v` and
every prior content `out` of the output set, the set left by
`GetTracksInImage` is a well-formed set whose elements are exactly the ids
`t` that are keys of `tracks` and whose track has an entry for `v`; it is the
same whatever the prior content was. -/
theorem GetTracksInImage_exact (v : Nat) (tracks : TracksMap) (out : StdSet)
    (hwf : FlatMap.WF tracks) :
    StdSet.WF (GetTracksInImage v tracks out)
    ∧ (∀ t, t ∈ GetTracksInImage v tracks out ↔
        ∃ tr, FlatMap.find tracks t = some tr
          ∧ (FlatMap.find tr.featPerView v).isSome)
    ∧ GetTracksInImage v tracks out = GetTracksInImage v tracks [] := by
  refine ⟨?_, ?_, rfl⟩
  · exact wf_foldl_tracksInImage v tracks _ List.Pairwise.nil
  · intro t
    unfold GetTracksInImage
    rw [mem_foldl_tracksInImage]
    simp only [StdSet.clear, List.not_mem_nil, false_or]
    constructor
    · rintro ⟨e, he, rfl, hv⟩
      exact ⟨e.2, (FlatMap.find_eq_some_iff tracks hwf e.1 e.2).mpr he, hv⟩
    · rintro ⟨tr, htr, hv⟩
      exact ⟨(t, tr), (FlatMap.find_eq_some_iff tracks hwf t tr).mp htr, rfl, hv⟩

/-- Witness of `GetTracksInImage_exact`: two tracks, the second one seen in
view 7, and a stale output set. -/
theorem GetTracksInImage_exact_witness :
    FlatMap.WF
        ([(0, { descType := 1, featPerView := [(3, 10), (4, 11)] }),
          (2, { descType := 1, featPerView := [(4, 12), (7, 13)] })] : TracksMap)
    ∧ GetTracksInImage 7
        [(0, { descType := 1, featPerView := [(3, 10), (4, 11)] }),
         (2, { descType := 1, featPerView := [(4, 12), (7, 13)] })] [5, 9] = [2] :=
  ⟨by decide,
   by
    have h := GetTracksInImage_exact 7
      [(0, { descType := 1, featPerView := [(3, 10), (4, 11)] }),
       (2, { descType := 1, featPerView := [(4, 12), (7, 13)] })] [5, 9] (by decide)
    rw [h.2.2]
    decide⟩

/-- When the view has an entry in the per-view index, `GetTracksInImageFast`
leaves a well-formed set holding exactly the ids listed for the view. -/
theorem GetTracksInImageFast_found (v : Nat) (perView : TracksPerView)
    (out : StdSet) (ids : TrackIdSet) (h : FlatMap.find perView v = some ids) :
    StdSet.WF (GetTracksInImageFast v perView out)
    ∧ ∀ t, t ∈ GetTracksInImageFast v perView out ↔ t ∈ ids := by
  unfold GetTracksInImageFast
  rw [h]
  refine ⟨StdSet.insertRange_wf _ _ List.Pairwise.nil, ?_⟩
  intro t
  rw [StdSet.mem_insertRange]
  simp [StdSet.clear]

/-- When the view has no entry in the per-view index, `GetTracksInImageFast`
leaves the output set as it was. -/
theorem GetTracksInImageFast_missing (v : Nat) (perView : TracksPerView)
    (out : StdSet) (h : FlatMap.find perView v = none) :
    GetTracksInImageFast v perView out = out := by
  unfold GetTracksInImageFast
  rw [h]

/-- Claim C2, the code at the failing input.  With an empty per-view index
and the prior content `{5}`, `GetTracksInImageFast` returns before its
`clear()`: the output set is still `{5}` and not the empty set, whereas with
an empty prior content the same query gives the empty set, so the result
depends on the prior content. -/
theorem GetTracksInImageFast_keeps_stale_output :
    GetTracksInImageFast 1 [] [5] = [5]
    ∧ GetTracksInImageFast 1 [] [] = []
    ∧ GetTracksInImage 1 [] [5] = [] := by
  decide

/-! ## Image ids of a track map -/

theorem mem_foldl_insert_keys (feats : FlatMap Nat) (acc : StdSet) (v : Nat) :
    v ∈ feats.foldl (fun acc2 iter => StdSet.insert iter.1 acc2) acc
      ↔ v ∈ acc ∨ (FlatMap.find feats v).isSome := by
  induction feats generalizing acc with
  | nil => simp [FlatMap.find]
  | cons e rest ih =>
    obtain ⟨k, f⟩ := e
    rw [List.foldl_cons, ih, StdSet.mem_insert, FlatMap.find_cons]
    split_ifs with h
    · subst h; simp
    · have h2 : ¬ v = k := fun hv => h hv.symm
      simp [h2]

theorem wf_foldl_insert_keys (feats : FlatMap Nat) (acc : StdSet) (h : StdSet.WF acc) :
    StdSet.WF (feats.foldl (fun acc2 iter => StdSet.insert iter.1 acc2) acc) := by
  induction feats generalizing acc with
  | nil => simpa using h
  | cons e rest ih =>
    rw [List.foldl_cons]
    exact ih _ (StdSet.insert_wf _ _ h)

theorem mem_ImageIdInTracks (tracks : TracksMap) (acc : StdSet) (v : Nat) :
    v ∈ ImageIdInTracks tracks acc
      ↔ v ∈ acc ∨ ∃ e ∈ tracks, (FlatMap.find e.2.featPerView v).isSome := by
  unfold ImageIdInTracks
  induction tracks generalizing acc with
  | nil => simp
  | cons e rest ih =>
    rw [List.foldl_cons, ih, mem_foldl_insert_keys]
    simp only [List.mem_cons, exists_eq_or_imp]
    tauto

theorem wf_ImageIdInTracks (tracks : TracksMap) (acc : StdSet) (h : StdSet.WF acc) :
    StdSet.WF (ImageIdInTracks tracks acc) := by
  unfold ImageIdInTracks
  induction tracks generalizing acc with
  | nil => simpa using h
  | cons e rest ih =>
    rw [List.foldl_cons]
    exact ih _ (wf_foldl_insert_keys _ _ h)

/-- Claim C8.  Called with an empty output set, `ImageIdInTracks` on a track
map yields a well-formed set that is the union of the view ids of all
tracks: `v` is in it iff some track of the map has an entry for `v`. -/
theorem ImageIdInTracks_union (tracks : TracksMap) :
    StdSet.WF (ImageIdInTracks tracks [])
    ∧ ∀ v, v ∈ ImageIdInTracks tracks [] ↔
        ∃ e ∈ tracks, (FlatMap.find e.2.featPerView v).isSome := by
  refine ⟨wf_ImageIdInTracks tracks [] List.Pairwise.nil, ?_⟩
  intro v
  rw [mem_ImageIdInTracks]
  simp

end TracksUtilsMap

/-! ## Orders on keypoints and on node keys -/

theorem lex2_of_eq (a1 a2 b1 b2 : Nat) (h : a1 = b1) (hlt : a2 < b2) :
    a1 < b1 ∨ (a1 = b1 ∧ a2 < b2) := Or.inr ⟨h, hlt⟩

theorem lex2_eq_elim (a1 a2 b1 b2 : Nat) (h : a1 = b1)
    (hl : a1 < b1 ∨ (a1 = b1 ∧ a2 < b2)) : a2 < b2 := by omega

theorem lex2_irrefl (a1 a2 : Nat) : ¬ (a1 < a1 ∨ (a1 = a1 ∧ a2 < a2)) := by omega

theorem lex2_trans (a1 a2 b1 b2 c1 c2 : Nat)
    (hab : a1 < b1 ∨ (a1 = b1 ∧ a2 < b2)) (hbc : b1 < c1 ∨ (b1 = c1 ∧ b2 < c2)) :
    a1 < c1 ∨ (a1 = c1 ∧ a2 < c2) := by omega

theorem lex2_trichotomy (a1 a2 b1 b2 : Nat) :
    ((a1 < b1 ∨ (a1 = b1 ∧ a2 < b2)) ∧ ¬ (b1 < a1 ∨ (b1 = a1 ∧ b2 < a2))
        ∧ ¬ (a1 = b1 ∧ a2 = b2))
    ∨ (¬ (a1 < b1 ∨ (a1 = b1 ∧ a2 < b2)) ∧ (b1 < a1 ∨ (b1 = a1 ∧ b2 < a2))
        ∧ ¬ (a1 = b1 ∧ a2 = b2))
    ∨ (¬ (a1 < b1 ∨ (a1 = b1 ∧ a2 < b2)) ∧ ¬ (b1 < a1 ∨ (b1 = a1 ∧ b2 < a2))
        ∧ (a1 = b1 ∧ a2 = b2)) := by omega

theorem lex3_of_not_lt (a1 a2 a3 b1 b2 b3 : Nat) (h1 : ¬ b1 < a1)
    (h2 : a2 < b2 ∨ (a2 = b2 ∧ a3 < b3)) :
    a1 < b1 ∨ (a1 = b1 ∧ (a2 < b2 ∨ (a2 = b2 ∧ a3 < b3))) := by omega

theorem lex3_equiv_iff (a1 a2 a3 b1 b2 b3 : Nat) :
    (¬ (a1 < b1 ∨ (a1 = b1 ∧ (a2 < b2 ∨ (a2 = b2 ∧ a3 < b3))))
      ∧ ¬ (b1 < a1 ∨ (b1 = a1 ∧ (b2 < a2 ∨ (b2 = a2 ∧ b3 < a3)))))
    ↔ (a1 = b1 ∧ a2 = b2 ∧ a3 = b3) := by omega

theorem KeypointId.lt_iff_lex (a b : KeypointId) :
    KeypointId.lt a b = true ↔
      a.descType < b.descType
        ∨ (a.descType = b.descType ∧ a.featIndex < b.featIndex) := by
  unfold KeypointId.lt
  split_ifs with h
  · simp only [decide_eq_true_eq]
    constructor
    · intro hlt; exact Or.inr ⟨h, hlt⟩
    · intro hl; exact lex2_eq_elim _ _ _ _ h hl
  · simp only [decide_eq_true_eq]
    constructor
    · intro hlt; exact Or.inl hlt
    · rintro (hlt | ⟨heq, _⟩)
      · exact hlt
      · exact absurd heq h

theorem IndexedFeaturePair.lt_iff_lex3 (x y : IndexedFeaturePair) :
    IndexedFeaturePair.lt x y = true ↔
      x.1 < y.1
        ∨ (x.1 = y.1 ∧ (x.2.descType < y.2.descType
            ∨ (x.2.descType = y.2.descType ∧ x.2.featIndex < y.2.featIndex))) := by
  unfold IndexedFeaturePair.lt
  simp only [Bool.or_eq_true, Bool.and_eq_true, Bool.not_eq_true', decide_eq_true_eq,
    decide_eq_false_iff_not, KeypointId.lt_iff_lex]
  constructor
  · rintro (h | ⟨h1, h2⟩)
    · exact Or.inl h
    · exact lex3_of_not_lt _ _ _ _ _ _ h1 h2
  · rintro (h | ⟨h1, h2⟩)
    · exact Or.inl h
    · exact Or.inr ⟨by rw [h1]; exact lt_irrefl _, h2⟩

/-- Claim C9.  `KeypointId::operator<` is the lexicographic strict total
order on (descType, featIndex): it holds iff the descriptor types are in
order, or are equal with the feature indices in order; it is irreflexive and
transitive, and of `a < b`, `b < a` and "both members equal" exactly one
holds. -/
theorem KeypointId_lt_lexicographic_strict_total :
    (∀ a b : KeypointId, KeypointId.lt a b = true ↔
        a.descType < b.descType
          ∨ (a.descType = b.descType ∧ a.featIndex < b.featIndex))
    ∧ (∀ a : KeypointId, KeypointId.lt a a = false)
    ∧ (∀ a b c : KeypointId, KeypointId.lt a b = true → KeypointId.lt b c = true →
        KeypointId.lt a c = true)
    ∧ (∀ a b : KeypointId,
        (KeypointId.lt a b = true ∧ ¬ KeypointId.lt b a = true
            ∧ ¬ (a.descType = b.descType ∧ a.featIndex = b.featIndex))
        ∨ (¬ KeypointId.lt a b = true ∧ KeypointId.lt b a = true
            ∧ ¬ (a.descType = b.descType ∧ a.featIndex = b.featIndex))
        ∨ (¬ KeypointId.lt a b = true ∧ ¬ KeypointId.lt b a = true
            ∧ (a.descType = b.descType ∧ a.featIndex = b.featIndex))) := by
  refine ⟨KeypointId.lt_iff_lex, ?_, ?_, ?_⟩
  · intro a
    rw [← Bool.not_eq_true, KeypointId.lt_iff_lex]
    exact lex2_irrefl _ _
  · intro a b c hab hbc
    rw [KeypointId.lt_iff_lex] at hab hbc ⊢
    exact lex2_trans _ _ _ _ _ _ hab hbc
  · intro a b
    rw [KeypointId.lt_iff_lex, KeypointId.lt_iff_lex]
    exact lex2_trichotomy _ _ _ _

/-- Witness of `KeypointId_lt_lexicographic_strict_total`: a chain of three
keypoints, one step on the descriptor type and one on the feature index. -/
theorem KeypointId_lt_lexicographic_strict_total_witness :
    KeypointId.lt ⟨1, 5⟩ ⟨2, 0⟩ = true ∧ KeypointId.lt ⟨2, 0⟩ ⟨2, 3⟩ = true
    ∧ KeypointId.lt ⟨1, 5⟩ ⟨2, 3⟩ = true :=
  ⟨by decide, by decide,
   KeypointId_lt_lexicographic_strict_total.2.2.1 ⟨1, 5⟩ ⟨2, 0⟩ ⟨2, 3⟩
     (by decide) (by decide)⟩

/-- Claim C10.  The order of `std::pair` on `IndexedFeaturePair`, built on
`KeypointId::operator<`, is the lexicographic order on
(view id, descriptor type, feature index), also in the form of the
lexicographic order of the triples; and two node keys are order-equivalent
(neither is less than the other) iff view id, descriptor type and feature
index are all equal, that is iff they are the same key. -/
theorem IndexedFeaturePair_lt_lexicographic :
    (∀ x y : IndexedFeaturePair, IndexedFeaturePair.lt x y = true ↔
        x.1 < y.1
          ∨ (x.1 = y.1 ∧ (x.2.descType < y.2.descType
              ∨ (x.2.descType = y.2.descType ∧ x.2.featIndex < y.2.featIndex))))
    ∧ (∀ x y : IndexedFeaturePair, IndexedFeaturePair.lt x y = true ↔
        toLex (x.1, toLex (x.2.descType, x.2.featIndex))
          < toLex (y.1, toLex (y.2.descType, y.2.featIndex)))
    ∧ (∀ x y : IndexedFeaturePair,
        (¬ IndexedFeaturePair.lt x y = true ∧ ¬ IndexedFeaturePair.lt y x = true) ↔
          (x.1 = y.1 ∧ x.2.descType = y.2.descType ∧ x.2.featIndex = y.2.featIndex))
    ∧ (∀ x y : IndexedFeaturePair,
        (¬ IndexedFeaturePair.lt x y = true ∧ ¬ IndexedFeaturePair.lt y x = true) ↔
          x = y) := by
  refine ⟨IndexedFeaturePair.lt_iff_lex3, ?_, ?_, ?_⟩
  · intro x y
    rw [IndexedFeaturePair.lt_iff_lex3, Prod.Lex.lt_iff, Prod.Lex.lt_iff]
  · intro x y
    rw [IndexedFeaturePair.lt_iff_lex3, IndexedFeaturePair.lt_iff_lex3]
    exact lex3_equiv_iff _ _ _ _ _ _
  · intro x y
    rw [IndexedFeaturePair.lt_iff_lex3, IndexedFeaturePair.lt_iff_lex3]
    obtain ⟨xv, xd, xf⟩ := x
    obtain ⟨yv, yd, yf⟩ := y
    simp only [Prod.mk.injEq, KeypointId.mk.injEq]
    exact lex3_equiv_iff _ _ _ _ _ _

/-! ## Feature ids of tracks in a view -/

theorem featureIdInView_eq_some_iff (allTracks : TracksMap) (v t : Nat) (x : FeatureId) :
    featureIdInView allTracks v t = some x ↔
      ∃ tr f, FlatMap.find allTracks t = some tr
        ∧ FlatMap.find tr.featPerView v = some f ∧ x = (tr.descType, f) := by
  unfold featureIdInView
  cases h1 : FlatMap.find allTracks t with
  | none => simp
  | some tr =>
    cases h2 : FlatMap.find tr.featPerView v with
    | none => simp [h2]
    | some f =>
      simp only [Option.some_bind, h2, Option.map_some', Option.some.injEq]
      constructor
      · intro h; exact ⟨tr, f, rfl, h2, h.symm⟩
      · rintro ⟨tr', f', h3, h4, h5⟩
        cases h3
        rw [h2] at h4
        cases h4
        exact h5.symm

namespace TracksUtilsMap

theorem GetFeatureIdInViewPerTrack.loop_eq (allTracks : TracksMap) (v : Nat)
    (ids : List Nat) (out : List FeatureId) :
    GetFeatureIdInViewPerTrack.loop allTracks v ids out
      = out ++ ids.filterMap (featureIdInView allTracks v) := by
  induction ids generalizing out with
  | nil => simp [GetFeatureIdInViewPerTrack.loop]
  | cons t rest ih =>
    unfold GetFeatureIdInViewPerTrack.loop
    rw [List.filterMap_cons]
    cases h1 : FlatMap.find allTracks t with
    | none => simp [featureIdInView, h1, ih]
    | some tr =>
      cases h2 : FlatMap.find tr.featPerView v with
      | none => simp [featureIdInView, h1, h2, ih]
      | some f => simp [featureIdInView, h1, h2, ih]

theorem forall₂_filter_filterMap {α β : Type} (g : α → Option β) (l : List α) :
    List.Forall₂ (fun a b => g a = some b)
      (l.filter (fun a => (g a).isSome)) (l.filterMap g) := by
  induction l with
  | nil => simp
  | cons a rest ih =>
    rw [List.filterMap_cons, List.filter_cons]
    cases h : g a with
    | none => simpa using ih
    | some b =>
      simp only [Option.isSome_some, if_true]
      exact List.Forall₂.cons h ih

/-- Claim C6.  Called with an empty output vector on a set of track ids
(strictly ascending), `GetFeatureIdInViewPerTrack` produces, for the
ascending sequence `ids` of those requested ids that are keys of `allTracks`
and whose track has an entry for `v`, the sequence of
(descType, feature in `v`) of these tracks, position by position; all other
ids contribute nothing, so the output is no longer than the set of requested
ids. -/
theorem GetFeatureIdInViewPerTrack_exact (allTracks : TracksMap) (trackIds : StdSet)
    (v : Nat) (hwf : StdSet.WF trackIds) :
    ∃ ids : List Nat,
      List.Sublist ids trackIds ∧ StdSet.WF ids
      ∧ (∀ t, t ∈ ids ↔ t ∈ trackIds ∧ ∃ tr f, FlatMap.find allTracks t = some tr
            ∧ FlatMap.find tr.featPerView v = some f)
      ∧ List.Forall₂
          (fun t x => ∃ tr f, FlatMap.find allTracks t = some tr
            ∧ FlatMap.find tr.featPerView v = some f ∧ x = (tr.descType, f))
          ids (GetFeatureIdInViewPerTrack allTracks trackIds v []).2
      ∧ (GetFeatureIdInViewPerTrack allTracks trackIds v []).2.length ≤ trackIds.length := by
  have hout : (GetFeatureIdInViewPerTrack allTracks trackIds v []).2
      = trackIds.filterMap (featureIdInView allTracks v) := by
    unfold GetFeatureIdInViewPerTrack
    simp [GetFeatureIdInViewPerTrack.loop_eq]
  refine ⟨trackIds.filter (fun t => (featureIdInView allTracks v t).isSome),
    List.filter_sublist _, List.Pairwise.filter _ hwf, ?_, ?_, ?_⟩
  · intro t
    rw [List.mem_filter, Option.isSome_iff_exists]
    constructor
    · rintro ⟨ht, x, hx⟩
      obtain ⟨tr, f, h1, h2, _⟩ := (featureIdInView_eq_some_iff _ _ _ _).mp hx
      exact ⟨ht, tr, f, h1, h2⟩
    · rintro ⟨ht, tr, f, h1, h2⟩
      exact ⟨ht, (tr.descType, f),
        (featureIdInView_eq_some_iff _ _ _ _).mpr ⟨tr, f, h1, h2, rfl⟩⟩
  · rw [hout]
    exact List.Forall₂.imp
      (fun t x h => (featureIdInView_eq_some_iff _ _ _ _).mp h)
      (forall₂_filter_filterMap (featureIdInView allTracks v) trackIds)
  · rw [hout]
    exact List.length_filterMap_le _ _

/-- Witness of `GetFeatureIdInViewPerTrack_exact`: of the requested ids
1, 2, 5 and 8, id 1 has no entry for view 4, id 5 is no key, and ids 2 and 8
contribute. -/
theorem GetFeatureIdInViewPerTrack_exact_witness :
    StdSet.WF [1, 2, 5, 8]
    ∧ (GetFeatureIdInViewPerTrack
        [(1, { descType := 3, featPerView := [(0, 10), (3, 11)] }),
         (2, { descType := 3, featPerView := [(3, 20), (4, 21)] }),
         (8, { descType := 6, featPerView := [(4, 80), (9, 81)] })]
        [1, 2, 5, 8] 4 []).2 = [(3, 21), (6, 80)]
    ∧ ∃ ids : List Nat, List.Sublist ids [1, 2, 5, 8]
        ∧ List.Forall₂
          (fun t x => ∃ tr f,
            FlatMap.find
              ([(1, { descType := 3, featPerView := [(0, 10), (3, 11)] }),
                (2, { descType := 3, featPerView := [(3, 20), (4, 21)] }),
                (8, { descType := 6, featPerView := [(4, 80), (9, 81)] })] : TracksMap)
              t = some tr
            ∧ FlatMap.find tr.featPerView 4 = some f ∧ x = (tr.descType, f))
          ids [(3, 21), (6, 80)] := by
  refine ⟨by decide, by decide, ?_⟩
  obtain ⟨ids, hsub, _, _, hall, _⟩ := GetFeatureIdInViewPerTrack_exact
    [(1, { descType := 3, featPerView := [(0, 10), (3, 11)] }),
     (2, { descType := 3, featPerView := [(3, 20), (4, 21)] }),
     (8, { descType := 6, featPerView := [(4, 80), (9, 81)] })]
    [1, 2, 5, 8] 4 (by decide)
  exact ⟨ids, hsub, hall⟩

end TracksUtilsMap

/-! ## Tracks to indexed matches -/

theorem FlatMap.mem_of_find_eq_some {V : Type} (m : FlatMap V) (k : Nat) (v : V)
    (h : FlatMap.find m k = some v) : (k, v) ∈ m := by
  induction m with
  | nil => simp [FlatMap.find] at h
  | cons e rest ih =>
    obtain ⟨k', v'⟩ := e
    rw [FlatMap.find_cons] at h
    split_ifs at h with hk
    · subst hk
      simp only [Option.some.injEq] at h
      subst h
      exact List.mem_cons_self _ _
    · exact List.mem_cons_of_mem _ (ih h)

namespace TracksUtilsMap

theorem find_if_FunctorMapFirstEqual_eq_some (id : Nat) (tracks : TracksMap) (tr : Track)
    (h : FlatMap.find tracks id = some tr) :
    find_if_FunctorMapFirstEqual id tracks = some (id, tr) := by
  induction tracks with
  | nil => simp [FlatMap.find] at h
  | cons e rest ih =>
    obtain ⟨k, tr'⟩ := e
    rw [FlatMap.find_cons] at h
    unfold find_if_FunctorMapFirstEqual
    split_ifs at h with hk
    · subst hk
      simp only [Option.some.injEq] at h
      subst h
      simp
    · have hk2 : ¬ id = k := fun hid => hk hid.symm
      simp only [hk2, if_false]
      exact ih h

/-- The loop succeeds on a filter list all of whose ids select a track with
at least two entries, and exactly two when the `assert` is checked,
appending one match per id. -/
theorem TracksToIndexedMatches.loop_ok_of_two_entries (w : Nat) (NDEBUG : Bool)
    (tracks : TracksMap) (filter : List Nat) (ms : List IndMatch)
    (h : List.Forall₂
      (fun id m => ∃ tr x y tail, FlatMap.find tracks id = some tr
        ∧ tr.featPerView = x :: y :: tail ∧ (NDEBUG = false → tail = [])
        ∧ m = (toIndexT w x.2, toIndexT w y.2))
      filter ms)
    (acc : List IndMatch) :
    TracksToIndexedMatches.loop w NDEBUG tracks filter acc = Except.ok (acc ++ ms) := by
  induction h generalizing acc with
  | nil => simp [TracksToIndexedMatches.loop]
  | cons hhead _ ih =>
    obtain ⟨tr, x, y, tail, hfind, hfeat, htail, hm⟩ := hhead
    unfold TracksToIndexedMatches.loop
    rw [find_if_FunctorMapFirstEqual_eq_some _ _ _ hfind]
    have hcond : ¬ (NDEBUG = false ∧ FlatMap.size tr.featPerView ≠ 2) := by
      rintro ⟨hnd, hsize⟩
      apply hsize
      rw [hfeat, htail hnd]
      rfl
    dsimp only
    rw [if_neg hcond]
    simp only [hfeat]
    rw [ih, hm]
    simp

/-- The loop succeeds, in either build, on a filter list all of whose ids
select a track with exactly two entries, appending one match per id. -/
theorem TracksToIndexedMatches.loop_ok (w : Nat) (NDEBUG : Bool) (tracks : TracksMap)
    (filter : List Nat) (ms : List IndMatch)
    (h : List.Forall₂
      (fun id m => ∃ tr x y, FlatMap.find tracks id = some tr
        ∧ tr.featPerView = [x, y] ∧ m = (toIndexT w x.2, toIndexT w y.2))
      filter ms)
    (acc : List IndMatch) :
    TracksToIndexedMatches.loop w NDEBUG tracks filter acc = Except.ok (acc ++ ms) :=
  TracksToIndexedMatches.loop_ok_of_two_entries w NDEBUG tracks filter ms
    (h.imp (fun _ _ ⟨tr, x, y, h1, h2, h3⟩ => ⟨tr, x, y, [], h1, h2, fun _ => rfl, h3⟩))
    acc

theorem exists_forall₂_of_forall_mem {α β : Type} (R : α → β → Prop) (l : List α)
    (h : ∀ a ∈ l, ∃ b, R a b) : ∃ bs, List.Forall₂ R l bs := by
  induction l with
  | nil => exact ⟨[], List.Forall₂.nil⟩
  | cons a rest ih =>
    obtain ⟨b, hb⟩ := h a (List.mem_cons_self _ _)
    obtain ⟨bs, hbs⟩ := ih (fun x hx => h x (List.mem_cons_of_mem _ hx))
    exact ⟨b :: bs, List.Forall₂.cons hb hbs⟩

theorem toIndexT_of_lt (w x : Nat) (h : x < 2 ^ w) : toIndexT w x = x :=
  Nat.mod_eq_of_lt h

/-- Claim C3.  On a track map and a filter list whose ids are all keys of
the map and select tracks with exactly two views and feature indices that
fit `IndexT`, `TracksToIndexedMatches` returns normally, in a build with or
without `NDEBUG` and whatever the prior content of the output (the result is
that for an empty prior content), a list as long as the filter list whose
element at each position is, for the track selected by the filter id at that
position, the pair (feature in the lower view id, feature in the higher view
id). -/
theorem TracksToIndexedMatches_two_view (w : Nat) (NDEBUG : Bool) (tracks : TracksMap)
    (filter : List Nat) (out : List IndMatch)
    (hwf : TracksMap.WF tracks)
    (hsel : ∀ id ∈ filter, ∃ tr, FlatMap.find tracks id = some tr
      ∧ FlatMap.size tr.featPerView = 2 ∧ ∀ e ∈ tr.featPerView, e.2 < 2 ^ w) :
    ∃ ms, TracksToIndexedMatches w NDEBUG tracks filter out = Except.ok ms
      ∧ TracksToIndexedMatches w NDEBUG tracks filter [] = Except.ok ms
      ∧ ms.length = filter.length
      ∧ List.Forall₂
          (fun id m => ∃ tr va vb fa fb, FlatMap.find tracks id = some tr
            ∧ va < vb ∧ FlatMap.find tr.featPerView va = some fa
            ∧ FlatMap.find tr.featPerView vb = some fb ∧ m = (fa, fb))
          filter ms := by
  have hstep : ∀ id ∈ filter, ∃ m : IndMatch, ∃ tr x y,
      FlatMap.find tracks id = some tr ∧ tr.featPerView = [x, y]
        ∧ m = (toIndexT w x.2, toIndexT w y.2)
        ∧ x.1 < y.1 ∧ x.2 < 2 ^ w ∧ y.2 < 2 ^ w := by
    intro id hid
    obtain ⟨tr, hfind, hsize, hfit⟩ := hsel id hid
    have hmem := FlatMap.mem_of_find_eq_some tracks id tr hfind
    have hwftr : FlatMap.WF tr.featPerView := hwf.2 (id, tr) hmem
    match hfeat : tr.featPerView with
    | [] => simp [FlatMap.size, hfeat] at hsize
    | [_] => simp [FlatMap.size, hfeat] at hsize
    | _ :: _ :: _ :: _ => simp [FlatMap.size, hfeat] at hsize
    | [x, y] =>
      rw [hfeat] at hwftr hfit
      refine ⟨(toIndexT w x.2, toIndexT w y.2), tr, x, y, hfind, hfeat, rfl, ?_, ?_, ?_⟩
      · unfold FlatMap.WF at hwftr
        rw [List.pairwise_cons] at hwftr
        exact hwftr.1 y (List.mem_cons_self _ _)
      · exact hfit x (List.mem_cons_self _ _)
      · exact hfit y (List.mem_cons_of_mem _ (List.mem_cons_self _ _))
  obtain ⟨ms, hms⟩ := exists_forall₂_of_forall_mem _ filter hstep
  have hok : TracksToIndexedMatches.loop w NDEBUG tracks filter [] = Except.ok ms := by
    have := TracksToIndexedMatches.loop_ok w NDEBUG tracks filter ms
      (hms.imp (fun id m ⟨tr, x, y, h1, h2, h3, _⟩ => ⟨tr, x, y, h1, h2, h3⟩)) []
    simpa using this
  refine ⟨ms, hok, hok, hms.length_eq.symm, ?_⟩
  refine hms.imp ?_
  rintro id m ⟨tr, ⟨xv, xf⟩, ⟨yv, yf⟩, h1, h2, h3, h4, h5, h6⟩
  refine ⟨tr, xv, yv, xf, yf, h1, h4, ?_, ?_, ?_⟩
  · rw [h2, FlatMap.find_cons]; simp
  · have hne : ¬ xv = yv := Nat.ne_of_lt h4
    rw [h2, FlatMap.find_cons, if_neg hne, FlatMap.find_cons]; simp
  · rw [h3]
    simp only at h5 h6
    rw [toIndexT_of_lt w xf h5, toIndexT_of_lt w yf h6]

/-- Witness of `TracksToIndexedMatches_two_view`: three two-view tracks, a
filter list with a repeated id, and a stale output vector, in both builds. -/
theorem TracksToIndexedMatches_two_view_witness :
    TracksMap.WF
        [(0, { descType := 1, featPerView := [(3, 10), (4, 11)] }),
         (2, { descType := 1, featPerView := [(4, 12), (7, 13)] }),
         (5, { descType := 2, featPerView := [(1, 50), (9, 51)] })]
    ∧ TracksToIndexedMatches 32 false
        [(0, { descType := 1, featPerView := [(3, 10), (4, 11)] }),
         (2, { descType := 1, featPerView := [(4, 12), (7, 13)] }),
         (5, { descType := 2, featPerView := [(1, 50), (9, 51)] })]
        [5, 0, 5] [(8, 8)] = Except.ok [(50, 51), (10, 11), (50, 51)]
    ∧ TracksToIndexedMatches 32 true
        [(0, { descType := 1, featPerView := [(3, 10), (4, 11)] }),
         (2, { descType := 1, featPerView := [(4, 12), (7, 13)] }),
         (5, { descType := 2, featPerView := [(1, 50), (9, 51)] })]
        [5, 0, 5] [(8, 8)] = Except.ok [(50, 51), (10, 11), (50, 51)]
    ∧ ∃ ms, TracksToIndexedMatches 32 false
        [(0, { descType := 1, featPerView := [(3, 10), (4, 11)] }),
         (2, { descType := 1, featPerView := [(4, 12), (7, 13)] }),
         (5, { descType := 2, featPerView := [(1, 50), (9, 51)] })]
        [5, 0, 5] [(8, 8)] = Except.ok ms ∧ ms.length = [5, 0, 5].length := by
  refine ⟨by decide, rfl, rfl, ?_⟩
  obtain ⟨ms, h1, _, h3, _⟩ := TracksToIndexedMatches_two_view 32 false
    [(0, { descType := 1, featPerView := [(3, 10), (4, 11)] }),
     (2, { descType := 1, featPerView := [(4, 12), (7, 13)] }),
     (5, { descType := 2, featPerView := [(1, 50), (9, 51)] })]
    [5, 0, 5] [(8, 8)] (by decide) (by decide)
  exact ⟨ms, h1, h3⟩

theorem find_twoViewTracksFrom_lt (d a b : Nat) (ms : List IndMatch) (s k : Nat)
    (hk : k < s) : FlatMap.find (twoViewTracksFrom d a b s ms) k = none := by
  induction ms generalizing s with
  | nil => rfl
  | cons m rest ih =>
    unfold twoViewTracksFrom
    rw [FlatMap.find_cons, if_neg (by omega)]
    exact ih (s + 1) (by omega)

theorem find_twoViewTracksFrom (d a b : Nat) (ms : List IndMatch) (s k : Nat)
    (m : IndMatch) (hk : ms[k]? = some m) :
    FlatMap.find (twoViewTracksFrom d a b s ms) (s + k)
      = some { descType := d, featPerView := [(a, m.1), (b, m.2)] } := by
  induction ms generalizing s k with
  | nil => simp at hk
  | cons m' rest ih =>
    unfold twoViewTracksFrom
    rw [FlatMap.find_cons]
    cases k with
    | zero =>
      simp only [List.getElem?_cons_zero, Option.some.injEq] at hk
      subst hk
      simp
    | succ k =>
      simp only [List.getElem?_cons_succ] at hk
      rw [if_neg (by omega)]
      have := ih (s + 1) k hk
      rw [show s + (k + 1) = s + 1 + k by omega]
      exact this

theorem key_ge_of_mem_twoViewTracksFrom (d a b : Nat) (ms : List IndMatch) (s : Nat)
    (e : Nat × Track) (he : e ∈ twoViewTracksFrom d a b s ms) : s ≤ e.1 := by
  induction ms generalizing s with
  | nil => simp [twoViewTracksFrom] at he
  | cons m rest ih =>
    unfold twoViewTracksFrom at he
    rcases List.mem_cons.mp he with he | he
    · rw [he]
    · have := ih (s + 1) he
      omega

theorem twoViewTracksFrom_wf (d a b : Nat) (hab : a < b) (ms : List IndMatch) (s : Nat) :
    TracksMap.WF (twoViewTracksFrom d a b s ms) := by
  induction ms generalizing s with
  | nil =>
    exact ⟨List.Pairwise.nil, fun e he => by simp [twoViewTracksFrom] at he⟩
  | cons m rest ih =>
    obtain ⟨ih1, ih2⟩ := ih (s + 1)
    unfold twoViewTracksFrom
    constructor
    · unfold FlatMap.WF
      rw [List.pairwise_cons]
      refine ⟨?_, ih1⟩
      intro e he
      have := key_ge_of_mem_twoViewTracksFrom d a b rest (s + 1) e he
      show s < e.1
      omega
    · intro e he
      rcases List.mem_cons.mp he with he | he
      · rw [he]
        unfold FlatMap.WF
        simp [hab]
      · exact ih2 e he

theorem forall₂_twoViewTracksFrom (d a b : Nat) (tracks : TracksMap) (filter : List Nat)
    (ms : List IndMatch) (s : Nat)
    (h : List.Forall₂
      (fun id m => ∃ tr, FlatMap.find tracks id = some tr
        ∧ tr.featPerView = [(a, m.1), (b, m.2)]) filter ms) :
    List.Forall₂
      (fun id e => ∃ tr, FlatMap.find tracks id = some tr
        ∧ e.2.featPerView = tr.featPerView)
      filter (twoViewTracksFrom d a b s ms) := by
  induction h generalizing s with
  | nil => exact List.Forall₂.nil
  | cons hhead _ ih =>
    obtain ⟨tr, h1, h2⟩ := hhead
    unfold twoViewTracksFrom
    exact List.Forall₂.cons ⟨tr, h1, h2.symm⟩ (ih (s + 1))

/-- Claim C5, as amended.  For views `a < b`: the two-view tracks
`k -> {a -> i_k, b -> j_k}` built from a sequence of matches form a
well-formed track map on which `TracksToIndexedMatches`, with the filter
list `0, 1, ..., n-1`, returns exactly that sequence; and on every track map
all of whose tracks have the two views `a`, `b` with feature indices that fit
`IndexT`, and every filter list of keys, rebuilding two-view tracks over
`(a, b)` from the output reproduces, position by position, the feature map of
the track selected by the filter id; both in a build with and in a build
without `NDEBUG`. -/
theorem TracksToIndexedMatches_round_trip (w d a b : Nat) (NDEBUG : Bool) (hab : a < b) :
    (∀ (ms out : List IndMatch), (∀ m ∈ ms, IndMatch.fits w m) →
        TracksMap.WF (twoViewTracks d a b ms)
        ∧ TracksToIndexedMatches w NDEBUG (twoViewTracks d a b ms)
            (List.range ms.length) out
            = Except.ok ms)
    ∧ (∀ (tracks : TracksMap) (filter : List Nat) (out : List IndMatch),
        TracksMap.WF tracks →
        (∀ e ∈ tracks, ∃ i j, e.2.featPerView = [(a, i), (b, j)]
          ∧ i < 2 ^ w ∧ j < 2 ^ w) →
        (∀ id ∈ filter, (FlatMap.find tracks id).isSome) →
        ∃ ms, TracksToIndexedMatches w NDEBUG tracks filter out = Except.ok ms
          ∧ List.Forall₂
              (fun id e => ∃ tr, FlatMap.find tracks id = some tr
                ∧ e.2.featPerView = tr.featPerView)
              filter (twoViewTracks d a b ms)) := by
  constructor
  · intro ms out hfits
    refine ⟨twoViewTracksFrom_wf d a b hab ms 0, ?_⟩
    have hall : List.Forall₂
        (fun id m => ∃ tr x y, FlatMap.find (twoViewTracks d a b ms) id = some tr
          ∧ tr.featPerView = [x, y] ∧ m = (toIndexT w x.2, toIndexT w y.2))
        (List.range ms.length) ms := by
      rw [List.forall₂_iff_get]
      refine ⟨by simp, ?_⟩
      intro i h1 h2
      simp only [List.get_eq_getElem, List.getElem_range]
      have hget : ms[i]? = some ms[i] := List.getElem?_eq_getElem h2
      have hfind := find_twoViewTracksFrom d a b ms 0 i ms[i] hget
      rw [Nat.zero_add] at hfind
      have hfit := hfits ms[i] (List.getElem_mem h2)
      refine ⟨_, (a, ms[i].1), (b, ms[i].2), hfind, rfl, ?_⟩
      simp only [toIndexT_of_lt w _ hfit.1, toIndexT_of_lt w _ hfit.2]
    have := TracksToIndexedMatches.loop_ok w NDEBUG (twoViewTracks d a b ms)
      (List.range ms.length) ms hall []
    simpa using this
  · intro tracks filter out _ htwo hkeys
    have hstep : ∀ id ∈ filter, ∃ m : IndMatch, ∃ tr,
        FlatMap.find tracks id = some tr
          ∧ tr.featPerView = [(a, m.1), (b, m.2)] ∧ m.1 < 2 ^ w ∧ m.2 < 2 ^ w := by
      intro id hid
      obtain ⟨tr, htr⟩ := Option.isSome_iff_exists.mp (hkeys id hid)
      obtain ⟨i, j, hij, hi, hj⟩ :=
        htwo (id, tr) (FlatMap.mem_of_find_eq_some tracks id tr htr)
      exact ⟨(i, j), tr, htr, hij, hi, hj⟩
    obtain ⟨ms, hms⟩ := exists_forall₂_of_forall_mem _ filter hstep
    refine ⟨ms, ?_, ?_⟩
    · have := TracksToIndexedMatches.loop_ok w NDEBUG tracks filter ms
        (hms.imp (fun id m ⟨tr, h1, h2, h3, h4⟩ =>
          ⟨tr, (a, m.1), (b, m.2), h1, h2, by
            simp only [toIndexT_of_lt w _ h3, toIndexT_of_lt w _ h4]⟩)) []
      simpa using this
    · exact forall₂_twoViewTracksFrom d a b tracks filter ms 0
        (hms.imp (fun id m ⟨tr, h1, h2, _, _⟩ => ⟨tr, h1, h2⟩))

/-- Witness of `TracksToIndexedMatches_round_trip` for views 1 < 2 and a
32-bit `IndexT`: two matches go through tracks and come back, and a map of
two-view tracks is reproduced from the matches of the filter list 5, 3, 5. -/
theorem TracksToIndexedMatches_round_trip_witness :
    1 < 2
    ∧ TracksToIndexedMatches 32 false (twoViewTracks 0 1 2 [(10, 20), (11, 21)])
        (List.range 2) [] = Except.ok [(10, 20), (11, 21)]
    ∧ ∃ ms, TracksToIndexedMatches 32 true
          [(3, { descType := 4, featPerView := [(1, 30), (2, 31)] }),
           (5, { descType := 4, featPerView := [(1, 50), (2, 51)] })]
          [5, 3, 5] [] = Except.ok ms
        ∧ List.Forall₂
            (fun id e => ∃ tr,
              FlatMap.find
                ([(3, { descType := 4, featPerView := [(1, 30), (2, 31)] }),
                  (5, { descType := 4, featPerView := [(1, 50), (2, 51)] })] : TracksMap)
                id = some tr
              ∧ e.2.featPerView = tr.featPerView)
            [5, 3, 5] (twoViewTracks 0 1 2 ms) :=
  ⟨by decide,
   ((TracksToIndexedMatches_round_trip 32 0 1 2 false (by decide)).1
      [(10, 20), (11, 21)] [] (by decide)).2,
   (TracksToIndexedMatches_round_trip 32 0 1 2 true (by decide)).2
      [(3, { descType := 4, featPerView := [(1, 30), (2, 31)] }),
       (5, { descType := 4, featPerView := [(1, 50), (2, 51)] })]
      [5, 3, 5] [] (by decide)
      (by
        intro e he
        simp only [List.mem_cons, List.mem_singleton, List.not_mem_nil, or_false] at he
        rcases he with rfl | rfl
        · exact ⟨30, 31, rfl, by decide, by decide⟩
        · exact ⟨50, 51, rfl, by decide, by decide⟩)
      (by decide)⟩

/-- Claim C5 as stated fails once a feature index does not fit `IndexT`.
With a 32-bit `IndexT`, the single two-view track `{1 -> 2^32, 2 -> 7}` is
a well-formed input; in either build `TracksToIndexedMatches` returns the
match `(0, 7)`, and no output of the call rebuilds to a track with the
feature map of the selected track. -/
theorem TracksToIndexedMatches_round_trip_truncates :
    TracksMap.WF [(0, { descType := 0, featPerView := [(1, 4294967296), (2, 7)] })]
    ∧ TracksToIndexedMatches 32 false
        [(0, { descType := 0, featPerView := [(1, 4294967296), (2, 7)] })] [0] []
        = Except.ok [(0, 7)]
    ∧ TracksToIndexedMatches 32 true
        [(0, { descType := 0, featPerView := [(1, 4294967296), (2, 7)] })] [0] []
        = Except.ok [(0, 7)]
    ∧ (¬ ∃ ms, TracksToIndexedMatches 32 false
          [(0, { descType := 0, featPerView := [(1, 4294967296), (2, 7)] })] [0] []
          = Except.ok ms
        ∧ List.Forall₂
            (fun id e => ∃ tr,
              FlatMap.find
                ([(0, { descType := 0,
                        featPerView := [(1, 4294967296), (2, 7)] })] : TracksMap)
                id = some tr
              ∧ e.2.featPerView = tr.featPerView)
            [0] (twoViewTracks 0 1 2 ms))
    ∧ ¬ ∃ ms, TracksToIndexedMatches 32 true
          [(0, { descType := 0, featPerView := [(1, 4294967296), (2, 7)] })] [0] []
          = Except.ok ms
        ∧ List.Forall₂
            (fun id e => ∃ tr,
              FlatMap.find
                ([(0, { descType := 0,
                        featPerView := [(1, 4294967296), (2, 7)] })] : TracksMap)
                id = some tr
              ∧ e.2.featPerView = tr.featPerView)
            [0] (twoViewTracks 0 1 2 ms) := by
  have hval : ∀ NDEBUG, TracksToIndexedMatches 32 NDEBUG
      [(0, { descType := 0, featPerView := [(1, 4294967296), (2, 7)] })] [0] []
      = Except.ok [(0, 7)] := by
    intro NDEBUG
    cases NDEBUG <;> rfl
  have hno : ∀ NDEBUG, ¬ ∃ ms, TracksToIndexedMatches 32 NDEBUG
        [(0, { descType := 0, featPerView := [(1, 4294967296), (2, 7)] })] [0] []
        = Except.ok ms
      ∧ List.Forall₂
          (fun id e => ∃ tr,
            FlatMap.find
              ([(0, { descType := 0,
                      featPerView := [(1, 4294967296), (2, 7)] })] : TracksMap)
              id = some tr
            ∧ e.2.featPerView = tr.featPerView)
          [0] (twoViewTracks 0 1 2 ms) := by
    rintro NDEBUG ⟨ms, hms, hall⟩
    rw [hval NDEBUG] at hms
    cases hms
    simp only [twoViewTracks, twoViewTracksFrom, List.forall₂_cons, List.Forall₂.nil,
      and_true] at hall
    obtain ⟨tr, h1, h2⟩ := hall
    simp only [FlatMap.find_cons, if_true, Option.some.injEq] at h1
    rw [← h1] at h2
    simp at h2
  exact ⟨by decide, hval false, hval true, hno false, hno true⟩

end TracksUtilsMap

/-! ## Histogram of track lengths -/

namespace StdMap

theorem find_assign (k v : Nat) (m : FlatMap Nat) (k' : Nat) :
    FlatMap.find (assign k v m) k' = if k = k' then some v else FlatMap.find m k' := by
  induction m with
  | nil => simp [assign, FlatMap.find_cons, FlatMap.find_nil]
  | cons e rest ih =>
    obtain ⟨k0, v0⟩ := e
    unfold assign
    by_cases h1 : k < k0
    · rw [if_pos h1, FlatMap.find_cons]
    · rw [if_neg h1]
      by_cases h2 : k = k0
      · rw [if_pos h2, FlatMap.find_cons, FlatMap.find_cons, h2]
        by_cases h3 : k0 = k'
        · simp only [h3, if_true]
        · simp only [h3, if_false]
      · rw [if_neg h2, FlatMap.find_cons, FlatMap.find_cons, ih]
        by_cases h3 : k0 = k'
        · have h4 : ¬ k = k' := by omega
          simp only [h3, h4, if_true, if_false]
        · simp only [h3, if_false]

theorem key_of_mem_assign (k v : Nat) (m : FlatMap Nat) (e : Nat × Nat)
    (he : e ∈ assign k v m) : e.1 = k ∨ ∃ e' ∈ m, e'.1 = e.1 := by
  induction m with
  | nil =>
    simp only [assign, List.mem_singleton] at he
    exact Or.inl (by rw [he])
  | cons e0 rest ih =>
    obtain ⟨k0, v0⟩ := e0
    unfold assign at he
    split_ifs at he with h1 h2
    · rcases List.mem_cons.mp he with he | he
      · exact Or.inl (by rw [he])
      · exact Or.inr ⟨e, he, rfl⟩
    · rcases List.mem_cons.mp he with he | he
      · exact Or.inl (by rw [he, h2])
      · exact Or.inr ⟨e, List.mem_cons_of_mem _ he, rfl⟩
    · rcases List.mem_cons.mp he with he | he
      · exact Or.inr ⟨(k0, v0), List.mem_cons_self _ _, by rw [he]⟩
      · rcases ih he with h | ⟨e', he', hk⟩
        · exact Or.inl h
        · exact Or.inr ⟨e', List.mem_cons_of_mem _ he', hk⟩

theorem assign_wf (k v : Nat) (m : FlatMap Nat) (h : FlatMap.WF m) :
    FlatMap.WF (assign k v m) := by
  induction m with
  | nil => simp [assign, FlatMap.WF]
  | cons e0 rest ih =>
    obtain ⟨k0, v0⟩ := e0
    unfold FlatMap.WF at h ih ⊢
    rw [List.pairwise_cons] at h
    unfold assign
    split_ifs with h1 h2
    · rw [List.pairwise_cons]
      refine ⟨?_, List.pairwise_cons.mpr h⟩
      intro e he
      rcases List.mem_cons.mp he with he | he
      · rw [he]; exact h1
      · exact lt_trans h1 (h.1 e he)
    · exact List.pairwise_cons.mpr h
    · rw [List.pairwise_cons]
      refine ⟨?_, ih h.2⟩
      intro e he
      rcases key_of_mem_assign k v rest e he with hk | ⟨e', he', hk⟩
      · show k0 < e.1
        omega
      · show k0 < e.1
        rw [← hk]
        exact h.1 e' he'

theorem find_eq_none_of_lt {V : Type} (m : FlatMap V) (k : Nat)
    (h : ∀ e ∈ m, k < e.1) : FlatMap.find m k = none := by
  induction m with
  | nil => rfl
  | cons e0 rest ih =>
    obtain ⟨k0, v0⟩ := e0
    have h0 : k < k0 := h (k0, v0) (List.mem_cons_self _ _)
    rw [FlatMap.find_cons, if_neg (by omega)]
    exact ih (fun e he => h e (List.mem_cons_of_mem _ he))

/-- Sum of the values after `m[k] = v`: the old value at `k` (0 if absent) is
replaced by `v`. -/
theorem sum_assign (k v : Nat) (m : FlatMap Nat) (h : FlatMap.WF m) :
    ((assign k v m).map Prod.snd).sum + (FlatMap.find m k).getD 0
      = (m.map Prod.snd).sum + v := by
  induction m with
  | nil => simp [assign, FlatMap.find_nil]
  | cons e0 rest ih =>
    obtain ⟨k0, v0⟩ := e0
    unfold FlatMap.WF at h ih
    rw [List.pairwise_cons] at h
    unfold assign
    split_ifs with h1 h2
    · have hnone : FlatMap.find ((k0, v0) :: rest) k = none := by
        apply find_eq_none_of_lt
        intro e he
        rcases List.mem_cons.mp he with he | he
        · rw [he]; exact h1
        · exact lt_trans h1 (h.1 e he)
      rw [hnone]
      simp only [List.map_cons, List.sum_cons, Option.getD_none]
      omega
    · subst h2
      rw [FlatMap.find_cons, if_pos rfl]
      simp only [List.map_cons, List.sum_cons, Option.getD_some]
      omega
    · have hne : ¬ k0 = k := fun hk => h2 hk.symm
      rw [FlatMap.find_cons, if_neg hne]
      have := ih h.2
      simp only [List.map_cons, List.sum_cons]
      omega

end StdMap

theorem countLength_cons (e : Nat × Track) (rest : TracksMap) (L : Nat) :
    countLength (e :: rest) L
      = (if FlatMap.size e.2.featPerView = L then 1 else 0) + countLength rest L := by
  unfold countLength
  rw [List.filter_cons]
  by_cases h : FlatMap.size e.2.featPerView = L
  · simp [h]; omega
  · simp [h]

theorem countLength_le_length (tracks : TracksMap) (L : Nat) :
    countLength tracks L ≤ tracks.length := by
  unfold countLength
  exact List.length_filter_le _ _

theorem countLength_pos_iff (tracks : TracksMap) (L : Nat) :
    countLength tracks L ≠ 0 ↔ ∃ e ∈ tracks, FlatMap.size e.2.featPerView = L := by
  unfold countLength
  rw [Nat.ne_zero_iff_zero_lt, List.length_pos_iff_exists_mem]
  constructor
  · rintro ⟨e, he⟩
    rw [List.mem_filter] at he
    exact ⟨e, he.1, by simpa using he.2⟩
  · rintro ⟨e, he, hL⟩
    exact ⟨e, List.mem_filter.mpr ⟨he, by simpa using hL⟩⟩

namespace TracksUtilsMap

theorem TracksLength.step_eq (h : FlatMap Nat) (e : Nat × Track)
    (hno : (FlatMap.find h (FlatMap.size e.2.featPerView)).getD 0 + 1 < SIZE_MOD) :
    TracksLength.step h e
      = StdMap.assign (FlatMap.size e.2.featPerView)
          ((FlatMap.find h (FlatMap.size e.2.featPerView)).getD 0 + 1) h := by
  cases hf : FlatMap.find h (FlatMap.size e.2.featPerView) with
  | none => simp only [TracksLength.step, hf, Option.getD_none, Nat.zero_add]
  | some c =>
    rw [hf] at hno
    simp only [Option.getD_some] at hno
    simp only [TracksLength.step, hf, Option.getD_some, Nat.mod_eq_of_lt hno]

theorem TracksLength.step_wf (h : FlatMap Nat) (e : Nat × Track) (hwf : FlatMap.WF h) :
    FlatMap.WF (TracksLength.step h e) := by
  cases hf : FlatMap.find h (FlatMap.size e.2.featPerView) with
  | none =>
    simp only [TracksLength.step, hf]
    exact StdMap.assign_wf _ _ _ hwf
  | some c =>
    simp only [TracksLength.step, hf]
    exact StdMap.assign_wf _ _ _ hwf

theorem TracksLength_cons (e : Nat × Track) (rest : TracksMap) (h : FlatMap Nat) :
    TracksLength (e :: rest) h = TracksLength rest (TracksLength.step h e) := rfl

theorem TracksLength_wf (tracks : TracksMap) (h : FlatMap Nat) (hwf : FlatMap.WF h) :
    FlatMap.WF (TracksLength tracks h) := by
  induction tracks generalizing h with
  | nil => exact hwf
  | cons e rest ih =>
    rw [TracksLength_cons]
    exact ih _ (TracksLength.step_wf h e hwf)

/-- The value of the histogram at `L` after `TracksLength`, for any prior
histogram, as long as no count exceeds the range of `std::size_t`. -/
theorem TracksLength_find (tracks : TracksMap) (h : FlatMap Nat)
    (hno : ∀ L, (FlatMap.find h L).getD 0 + countLength tracks L < SIZE_MOD) (L : Nat) :
    FlatMap.find (TracksLength tracks h) L
      = if countLength tracks L = 0 then FlatMap.find h L
        else some ((FlatMap.find h L).getD 0 + countLength tracks L) := by
  induction tracks generalizing h with
  | nil => simp [TracksLength, countLength]
  | cons e rest ih =>
    have hlen := hno (FlatMap.size e.2.featPerView)
    rw [countLength_cons, if_pos rfl] at hlen
    have hstep := TracksLength.step_eq h e (by omega)
    have hfind : ∀ L', FlatMap.find (TracksLength.step h e) L'
        = if FlatMap.size e.2.featPerView = L'
          then some ((FlatMap.find h (FlatMap.size e.2.featPerView)).getD 0 + 1)
          else FlatMap.find h L' := by
      intro L'
      rw [hstep, StdMap.find_assign]
    rw [TracksLength_cons, ih]
    · rw [hfind, countLength_cons]
      by_cases hL : FlatMap.size e.2.featPerView = L
      · subst hL
        simp only [if_true, Option.getD_some]
        by_cases hc : countLength rest (FlatMap.size e.2.featPerView) = 0
        · simp [hc]
        · simp only [hc, if_false]
          rw [if_neg (by omega)]
          congr 1
          omega
      · simp only [hL, if_false, Nat.zero_add]
    · intro L'
      have := hno L'
      rw [countLength_cons] at this
      rw [hfind]
      by_cases hL : FlatMap.size e.2.featPerView = L'
      · subst hL
        simp only [if_true, Option.getD_some] at this ⊢
        omega
      · simp only [hL, if_false, Nat.zero_add] at this ⊢
        exact this

/-- The sum of the counts grows by the number of tracks. -/
theorem TracksLength_sum (tracks : TracksMap) (h : FlatMap Nat) (hwf : FlatMap.WF h)
    (hno : ∀ L, (FlatMap.find h L).getD 0 + countLength tracks L < SIZE_MOD) :
    ((TracksLength tracks h).map Prod.snd).sum
      = (h.map Prod.snd).sum + tracks.length := by
  induction tracks generalizing h with
  | nil => simp [TracksLength]
  | cons e rest ih =>
    have hlen := hno (FlatMap.size e.2.featPerView)
    rw [countLength_cons, if_pos rfl] at hlen
    have hstep := TracksLength.step_eq h e (by omega)
    have hsum := StdMap.sum_assign (FlatMap.size e.2.featPerView)
      ((FlatMap.find h (FlatMap.size e.2.featPerView)).getD 0 + 1) h hwf
    rw [TracksLength_cons, ih _ (TracksLength.step_wf h e hwf)]
    · rw [hstep, List.length_cons]
      omega
    · intro L'
      have := hno L'
      rw [countLength_cons] at this
      rw [hstep, StdMap.find_assign]
      by_cases hL : FlatMap.size e.2.featPerView = L'
      · subst hL
        simp only [if_true, Option.getD_some] at this ⊢
        omega
      · simp only [hL, if_false, Nat.zero_add] at this ⊢
        exact this

/-- Claim C7.  Called with an empty histogram on a track map (whose number
of entries is a `std::size_t`), `TracksLength` yields a well-formed map whose
keys are exactly the lengths `featPerView.size()` that occur among the
tracks, whose value at each key `L` is the number of tracks of length `L`,
and whose values sum to the number of tracks. -/
theorem TracksLength_histogram (tracks : TracksMap) (hlen : tracks.length < SIZE_MOD) :
    FlatMap.WF (TracksLength tracks [])
    ∧ (∀ L, (FlatMap.find (TracksLength tracks []) L).isSome ↔
        ∃ e ∈ tracks, FlatMap.size e.2.featPerView = L)
    ∧ (∀ L c, FlatMap.find (TracksLength tracks []) L = some c →
        c = countLength tracks L)
    ∧ (∀ L, (∃ e ∈ tracks, FlatMap.size e.2.featPerView = L) →
        FlatMap.find (TracksLength tracks []) L = some (countLength tracks L))
    ∧ ((TracksLength tracks []).map Prod.snd).sum = tracks.length := by
  have hno : ∀ L, (FlatMap.find ([] : FlatMap Nat) L).getD 0 + countLength tracks L
      < SIZE_MOD := by
    intro L
    have := countLength_le_length tracks L
    simp only [FlatMap.find_nil, Option.getD_none, Nat.zero_add]
    omega
  have hfind : ∀ L, FlatMap.find (TracksLength tracks []) L
      = if countLength tracks L = 0 then none else some (countLength tracks L) := by
    intro L
    rw [TracksLength_find tracks [] hno L]
    simp [FlatMap.find_nil]
  refine ⟨TracksLength_wf tracks [] List.Pairwise.nil, ?_, ?_, ?_, ?_⟩
  · intro L
    rw [hfind, ← countLength_pos_iff]
    by_cases hc : countLength tracks L = 0 <;> simp [hc]
  · intro L c hc
    rw [hfind] at hc
    by_cases h0 : countLength tracks L = 0
    · simp [h0] at hc
    · simp only [h0, if_false, Option.some.injEq] at hc
      exact hc.symm
  · intro L hL
    rw [hfind, if_neg ((countLength_pos_iff tracks L).mpr hL)]
  · have := TracksLength_sum tracks [] List.Pairwise.nil hno
    simpa using this

/-- Witness of `TracksLength_histogram`: two tracks of length 2 and one of
length 3. -/
theorem TracksLength_histogram_witness :
    ([(0, { descType := 1, featPerView := [(3, 10), (4, 11)] }),
      (2, { descType := 1, featPerView := [(4, 12), (7, 13), (8, 14)] }),
      (5, { descType := 2, featPerView := [(1, 50), (9, 51)] })] : TracksMap).length
      < SIZE_MOD
    ∧ TracksLength
        [(0, { descType := 1, featPerView := [(3, 10), (4, 11)] }),
         (2, { descType := 1, featPerView := [(4, 12), (7, 13), (8, 14)] }),
         (5, { descType := 2, featPerView := [(1, 50), (9, 51)] })] [] = [(2, 2), (3, 1)]
    ∧ ((TracksLength
        [(0, { descType := 1, featPerView := [(3, 10), (4, 11)] }),
         (2, { descType := 1, featPerView := [(4, 12), (7, 13), (8, 14)] }),
         (5, { descType := 2, featPerView := [(1, 50), (9, 51)] })] []).map Prod.snd).sum
        = 3 :=
  ⟨by decide, by decide,
   (TracksLength_histogram
      [(0, { descType := 1, featPerView := [(3, 10), (4, 11)] }),
       (2, { descType := 1, featPerView := [(4, 12), (7, 13), (8, 14)] }),
       (5, { descType := 2, featPerView := [(1, 50), (9, 51)] })] (by decide)).2.2.2.2⟩

end TracksUtilsMap

/-! ## Track ids of a track map -/

theorem StdSet.insert_of_forall_lt (x : Nat) (s : StdSet) (h : ∀ a ∈ s, a < x) :
    StdSet.insert x s = s ++ [x] := by
  induction s with
  | nil => rfl
  | cons y ys ih =>
    have hy : y < x := h y (List.mem_cons_self _ _)
    unfold StdSet.insert
    rw [if_neg (by omega), if_neg (by omega), ih (fun a ha => h a (List.mem_cons_of_mem _ ha))]
    rfl

namespace TracksUtilsMap

theorem foldl_insert_keys_of_wf (tracks : TracksMap) (acc : StdSet)
    (hwf : FlatMap.WF tracks) (hacc : ∀ a ∈ acc, ∀ e ∈ tracks, a < e.1) :
    tracks.foldl (fun acc iterT => StdSet.insert iterT.1 acc) acc
      = acc ++ tracks.map Prod.fst := by
  induction tracks generalizing acc with
  | nil => simp
  | cons e rest ih =>
    unfold FlatMap.WF at hwf ih
    rw [List.pairwise_cons] at hwf
    rw [List.foldl_cons,
      StdSet.insert_of_forall_lt e.1 acc (fun a ha => hacc a ha e (List.mem_cons_self _ _)),
      ih _ hwf.2]
    · simp
    · intro a ha e' he'
      rcases List.mem_append.mp ha with ha | ha
      · exact hacc a ha e' (List.mem_cons_of_mem _ he')
      · simp only [List.mem_singleton] at ha
        rw [ha]
        exact hwf.1 e' he'

theorem keys_pairwise_of_wf {V : Type} (m : FlatMap V) (hwf : FlatMap.WF m) :
    StdSet.WF (m.map Prod.fst) := by
  unfold StdSet.WF
  rw [List.pairwise_map]
  exact hwf

theorem mem_keys_iff_find_isSome {V : Type} (m : FlatMap V) (k : Nat) :
    k ∈ m.map Prod.fst ↔ (FlatMap.find m k).isSome := by
  rw [FlatMap.find_isSome_iff, List.mem_map]
  constructor
  · rintro ⟨⟨k', v⟩, he, hk⟩
    simp only at hk
    subst hk
    exact ⟨v, he⟩
  · rintro ⟨v, hv⟩
    exact ⟨(k, v), hv, rfl⟩

/-- Claim C15.  For a track map (keys strictly ascending) and every prior
content of the output set, `GetTracksIdVector` leaves the output equal to the
sequence of the keys of the map in map order: a well-formed (ascending) set
whose elements are exactly the track ids of the map and whose cardinality is
the number of tracks. -/
theorem GetTracksIdVector_keys (tracks : TracksMap) (out : StdSet)
    (hwf : FlatMap.WF tracks) :
    GetTracksIdVector tracks out = tracks.map Prod.fst
    ∧ StdSet.WF (GetTracksIdVector tracks out)
    ∧ (∀ t, t ∈ GetTracksIdVector tracks out ↔ (FlatMap.find tracks t).isSome)
    ∧ (GetTracksIdVector tracks out).length = tracks.length := by
  have heq : GetTracksIdVector tracks out = tracks.map Prod.fst := by
    unfold GetTracksIdVector
    rw [foldl_insert_keys_of_wf tracks _ hwf (by simp [StdSet.clear])]
    simp [StdSet.clear]
  refine ⟨heq, ?_, ?_, ?_⟩
  · rw [heq]; exact keys_pairwise_of_wf tracks hwf
  · intro t; rw [heq]; exact mem_keys_iff_find_isSome tracks t
  · rw [heq]; simp

/-- Witness of `GetTracksIdVector_keys`: three tracks and a stale output. -/
theorem GetTracksIdVector_keys_witness :
    FlatMap.WF
        ([(0, { descType := 1, featPerView := [(3, 10), (4, 11)] }),
          (2, { descType := 1, featPerView := [(4, 12), (7, 13)] }),
          (5, { descType := 2, featPerView := [(1, 50), (9, 51)] })] : TracksMap)
    ∧ GetTracksIdVector
        [(0, { descType := 1, featPerView := [(3, 10), (4, 11)] }),
         (2, { descType := 1, featPerView := [(4, 12), (7, 13)] }),
         (5, { descType := 2, featPerView := [(1, 50), (9, 51)] })] [1, 9] = [0, 2, 5] :=
  ⟨by decide,
   (GetTracksIdVector_keys
      [(0, { descType := 1, featPerView := [(3, 10), (4, 11)] }),
       (2, { descType := 1, featPerView := [(4, 12), (7, 13)] }),
       (5, { descType := 2, featPerView := [(1, 50), (9, 51)] })] [1, 9] (by decide)).1⟩

/-! ## Agreement of the overloads on a consistent per-view index -/

theorem mem_ImageIdInTracksPerView (perView : TracksPerView) (acc : StdSet) (v : Nat) :
    v ∈ ImageIdInTracksPerView perView acc
      ↔ v ∈ acc ∨ (FlatMap.find perView v).isSome := by
  unfold ImageIdInTracksPerView
  induction perView generalizing acc with
  | nil => simp [FlatMap.find_nil]
  | cons e rest ih =>
    obtain ⟨k, ids⟩ := e
    rw [List.foldl_cons, ih, StdSet.mem_insert, FlatMap.find_cons]
    split_ifs with h
    · subst h; simp
    · have h2 : ¬ v = k := fun hv => h hv.symm
      simp [h2]

theorem wf_ImageIdInTracksPerView (perView : TracksPerView) (acc : StdSet)
    (h : StdSet.WF acc) : StdSet.WF (ImageIdInTracksPerView perView acc) := by
  unfold ImageIdInTracksPerView
  induction perView generalizing acc with
  | nil => simpa using h
  | cons e rest ih =>
    rw [List.foldl_cons]
    exact ih _ (StdSet.insert_wf _ _ h)

/-- Claim C16.  For a track map and a per-view index consistent with it
(`t` is listed for `v` iff track `t` has an entry for `v`; a view is a key of
the index only with a non-empty list), the two `ImageIdInTracks` overloads,
both started from an empty set, return the same set of image ids. -/
theorem ImageIdInTracks_overloads_agree (tracks : TracksMap) (perView : TracksPerView)
    (hwf : FlatMap.WF tracks)
    (hcons : ∀ v t, (∃ ids, FlatMap.find perView v = some ids ∧ t ∈ ids) ↔
      ∃ tr, FlatMap.find tracks t = some tr ∧ (FlatMap.find tr.featPerView v).isSome)
    (hne : ∀ v ids, FlatMap.find perView v = some ids → ids ≠ []) :
    ImageIdInTracksPerView perView [] = ImageIdInTracks tracks [] := by
  apply StdSet.ext_of_wf _ _ (wf_ImageIdInTracksPerView perView [] List.Pairwise.nil)
    (wf_ImageIdInTracks tracks [] List.Pairwise.nil)
  intro v
  rw [mem_ImageIdInTracksPerView, mem_ImageIdInTracks]
  simp only [List.not_mem_nil, false_or]
  constructor
  · intro hv
    obtain ⟨ids, hids⟩ := Option.isSome_iff_exists.mp hv
    obtain ⟨t, ht⟩ := List.exists_mem_of_ne_nil ids (hne v ids hids)
    obtain ⟨tr, htr, hview⟩ := (hcons v t).mp ⟨ids, hids, ht⟩
    exact ⟨(t, tr), FlatMap.mem_of_find_eq_some tracks t tr htr, hview⟩
  · rintro ⟨e, he, hview⟩
    obtain ⟨ids, hids, _⟩ := (hcons v e.1).mpr
      ⟨e.2, (FlatMap.find_eq_some_iff tracks hwf e.1 e.2).mpr he, hview⟩
    rw [hids]
    rfl

/-- Claim C18.  For a track map, a per-view index consistent with it (`t` is
listed for `v` iff `t` is a key of the map whose track has an entry for `v`)
and every view `v`, `GetTracksInImageFast` and `GetTracksInImage`, each
started from an empty output set, produce the same set of track ids. -/
theorem GetTracksInImage_fast_slow_agree (tracks : TracksMap) (perView : TracksPerView)
    (v : Nat) (hwf : FlatMap.WF tracks)
    (hcons : ∀ v' t, (∃ ids, FlatMap.find perView v' = some ids ∧ t ∈ ids) ↔
      ∃ tr, FlatMap.find tracks t = some tr ∧ (FlatMap.find tr.featPerView v').isSome) :
    GetTracksInImageFast v perView [] = GetTracksInImage v tracks [] := by
  have hslow_wf : StdSet.WF (GetTracksInImage v tracks []) :=
    wf_foldl_tracksInImage v tracks _ List.Pairwise.nil
  have hslow : ∀ t, t ∈ GetTracksInImage v tracks [] ↔
      ∃ tr, FlatMap.find tracks t = some tr ∧ (FlatMap.find tr.featPerView v).isSome := by
    intro t
    unfold GetTracksInImage
    rw [mem_foldl_tracksInImage]
    simp only [StdSet.clear, List.not_mem_nil, false_or]
    constructor
    · rintro ⟨e, he, rfl, hv⟩
      exact ⟨e.2, (FlatMap.find_eq_some_iff tracks hwf e.1 e.2).mpr he, hv⟩
    · rintro ⟨tr, htr, hv⟩
      exact ⟨(t, tr), FlatMap.mem_of_find_eq_some tracks t tr htr, rfl, hv⟩
  cases hfind : FlatMap.find perView v with
  | none =>
    rw [GetTracksInImageFast_missing v perView [] hfind]
    symm
    apply List.eq_nil_iff_forall_not_mem.mpr
    intro t ht
    obtain ⟨ids, hids, _⟩ := (hcons v t).mpr ((hslow t).mp ht)
    rw [hfind] at hids
    cases hids
  | some ids =>
    obtain ⟨hfast_wf, hfast⟩ := GetTracksInImageFast_found v perView [] ids hfind
    apply StdSet.ext_of_wf _ _ hfast_wf hslow_wf
    intro t
    rw [hfast, hslow]
    constructor
    · intro ht; exact (hcons v t).mp ⟨ids, hfind, ht⟩
    · intro ht
      obtain ⟨ids', hids', hmem⟩ := (hcons v t).mpr ht
      rw [hfind] at hids'
      cases hids'
      exact hmem

/-- Claim C19.  `GetFeatureIdInViewPerTrack` only appends: for every input
and every prior content `p` of the output vector, the vector after the call
is `p` followed by what the call emits on an empty vector; the returned flag
is true iff the vector is non-empty after the call; and with an empty prior
vector it is true iff some requested id is a key of the map whose track has a
feature in view `v`. -/
theorem GetFeatureIdInViewPerTrack_appends (allTracks : TracksMap) (trackIds : StdSet)
    (v : Nat) (p : List FeatureId) :
    (GetFeatureIdInViewPerTrack allTracks trackIds v p).2
        = p ++ (GetFeatureIdInViewPerTrack allTracks trackIds v []).2
    ∧ ((GetFeatureIdInViewPerTrack allTracks trackIds v p).1 = true ↔
        (GetFeatureIdInViewPerTrack allTracks trackIds v p).2 ≠ [])
    ∧ ((GetFeatureIdInViewPerTrack allTracks trackIds v []).1 = true ↔
        ∃ t ∈ trackIds, ∃ tr f, FlatMap.find allTracks t = some tr
          ∧ FlatMap.find tr.featPerView v = some f) := by
  have hout : ∀ q, (GetFeatureIdInViewPerTrack allTracks trackIds v q).2
      = q ++ trackIds.filterMap (featureIdInView allTracks v) := by
    intro q
    unfold GetFeatureIdInViewPerTrack
    simp [GetFeatureIdInViewPerTrack.loop_eq]
  have hflag : ∀ q, ((GetFeatureIdInViewPerTrack allTracks trackIds v q).1 = true ↔
      (GetFeatureIdInViewPerTrack allTracks trackIds v q).2 ≠ []) := by
    intro q
    unfold GetFeatureIdInViewPerTrack
    simp [List.isEmpty_iff]
  refine ⟨?_, hflag p, ?_⟩
  · rw [hout p, hout []]
    simp
  · rw [hflag [], hout []]
    simp only [List.nil_append]
    rw [← List.length_pos, List.length_pos_iff_exists_mem]
    constructor
    · rintro ⟨x, hx⟩
      obtain ⟨t, ht, htx⟩ := List.mem_filterMap.mp hx
      obtain ⟨tr, f, h1, h2, _⟩ := (featureIdInView_eq_some_iff _ _ _ _).mp htx
      exact ⟨t, ht, tr, f, h1, h2⟩
    · rintro ⟨t, ht, tr, f, h1, h2⟩
      exact ⟨(tr.descType, f), List.mem_filterMap.mpr
        ⟨t, ht, (featureIdInView_eq_some_iff _ _ _ _).mpr ⟨tr, f, h1, h2, rfl⟩⟩⟩

end TracksUtilsMap

/-! ## The driver and the result of `Process()` -/

namespace GlobalSfM

theorem main_eq_reconstruct_of_reaches (r : Run) (h : reachesReconstruction r) :
    main r = reconstruct r (if r.folderExists then [] else [Step.folderCreate]) := by
  obtain ⟨h1, h2, h3, h4, h5, h6, h7, h8, h9, h10⟩ := h
  unfold main
  rw [if_neg (by simp [h1, h2]),
    if_neg (by rw [not_or, not_lt, not_lt]; exact ⟨h3, h4⟩),
    if_neg (by rw [not_or, not_lt, not_lt]; exact ⟨h5, h6⟩)]
  simp only [h7, h8, h9, h10, Bool.not_true, Bool.false_eq_true, if_false]
  cases r.folderExists <;> simp

/-- A run that does not reach the reconstruction step never calls
`Process()` and returns `EXIT_FAILURE`. -/
theorem main_of_not_reaches (r : Run) (h : ¬ reachesReconstruction r) :
    Step.engineProcess ∉ (main r).1 ∧ (main r).2 = EXIT_FAILURE := by
  unfold main
  split_ifs with h1 h2 h3 h4 h5 h6 h7 h8
  all_goals first
    | exact ⟨by decide, rfl⟩
    | (exfalso
       apply h
       simp only [not_or, not_lt, Bool.not_eq_true, Bool.not_eq_true',
         Bool.not_eq_false] at h1 h2 h3 h4 h5 h6 h7
       exact ⟨h1.1, h1.2, h2.1, h2.2, h3.1, h3.2, by simpa using h4, by simpa using h5,
         by simpa using h6, by simpa using h7⟩)

/-- Claim C17.  On every run that reaches the reconstruction step, `main`
calls `Process()`; it returns `EXIT_FAILURE` without colorizing, generating
the report or saving a scene file iff `Process()` returns true (non-zero);
and it colorizes, generates the report, saves both scene files, in this
order after the call of `Process()`, and returns `EXIT_SUCCESS` iff
`Process()` returns false (zero). -/
theorem main_treats_nonzero_Process_as_failure (r : Run)
    (hreach : reachesReconstruction r) :
    Step.engineProcess ∈ (main r).1
    ∧ (r.process = true ↔
        ((main r).2 = EXIT_FAILURE
          ∧ Step.engineColorize ∉ (main r).1
          ∧ Step.generateSfMReport ∉ (main r).1
          ∧ Step.saveSfmData ∉ (main r).1
          ∧ Step.saveCloudAndPoses ∉ (main r).1))
    ∧ (r.process = false ↔
        ((main r).2 = EXIT_SUCCESS
          ∧ Step.engineColorize ∈ (main r).1
          ∧ Step.generateSfMReport ∈ (main r).1
          ∧ Step.saveSfmData ∈ (main r).1
          ∧ Step.saveCloudAndPoses ∈ (main r).1))
    ∧ (r.process = true →
        main r = ((if r.folderExists then [] else [Step.folderCreate])
          ++ [Step.engineProcess], EXIT_FAILURE))
    ∧ (r.process = false →
        main r = ((if r.folderExists then [] else [Step.folderCreate])
          ++ [Step.engineProcess, Step.engineColorize]
          ++ (if r.colorize then [] else [Step.printColorizeFailed])
          ++ [Step.generateSfMReport, Step.saveSfmData, Step.saveCloudAndPoses],
          EXIT_SUCCESS)) := by
  rw [main_eq_reconstruct_of_reaches r hreach]
  unfold reconstruct
  cases r.process <;> cases r.folderExists <;> cases r.colorize <;>
    simp [EXIT_FAILURE, EXIT_SUCCESS]

/-- Witness of `main_treats_nonzero_Process_as_failure`: two runs with valid
options whose loads succeed, one whose `Process()` returns true and one
whose `Process()` returns false and whose `Colorize()` fails. -/
theorem main_treats_nonzero_Process_as_failure_witness :
    reachesReconstruction
        { argc := 9, cmdProcessThrows := false, iRotationAveragingMethod := 2,
          iTranslationAveragingMethod := 3, loadSfmData := true,
          loadFeaturesPerView := true, loadMatches := true, sOutDirEmpty := false,
          folderExists := false, process := true, colorize := true }
    ∧ main
        { argc := 9, cmdProcessThrows := false, iRotationAveragingMethod := 2,
          iTranslationAveragingMethod := 3, loadSfmData := true,
          loadFeaturesPerView := true, loadMatches := true, sOutDirEmpty := false,
          folderExists := false, process := true, colorize := true }
        = ([Step.folderCreate, Step.engineProcess], EXIT_FAILURE)
    ∧ reachesReconstruction
        { argc := 9, cmdProcessThrows := false, iRotationAveragingMethod := 1,
          iTranslationAveragingMethod := 1, loadSfmData := true,
          loadFeaturesPerView := true, loadMatches := true, sOutDirEmpty := false,
          folderExists := true, process := false, colorize := false }
    ∧ main
        { argc := 9, cmdProcessThrows := false, iRotationAveragingMethod := 1,
          iTranslationAveragingMethod := 1, loadSfmData := true,
          loadFeaturesPerView := true, loadMatches := true, sOutDirEmpty := false,
          folderExists := true, process := false, colorize := false }
        = ([Step.engineProcess, Step.engineColorize, Step.printColorizeFailed,
            Step.generateSfMReport, Step.saveSfmData, Step.saveCloudAndPoses],
           EXIT_SUCCESS) :=
  ⟨by decide,
   (main_treats_nonzero_Process_as_failure
      { argc := 9, cmdProcessThrows := false, iRotationAveragingMethod := 2,
        iTranslationAveragingMethod := 3, loadSfmData := true,
        loadFeaturesPerView := true, loadMatches := true, sOutDirEmpty := false,
        folderExists := false, process := true, colorize := true }
      (by decide)).2.2.2.1 rfl,
   by decide,
   (main_treats_nonzero_Process_as_failure
      { argc := 9, cmdProcessThrows := false, iRotationAveragingMethod := 1,
        iTranslationAveragingMethod := 1, loadSfmData := true,
        loadFeaturesPerView := true, loadMatches := true, sOutDirEmpty := false,
        folderExists := true, process := false, colorize := false }
      (by decide)).2.2.2.2 rfl⟩

end GlobalSfM

/-! ## Accumulation of the histogram of track lengths -/

theorem FlatMap.eq_of_find_eq {V : Type} (m1 m2 : FlatMap V)
    (h1 : FlatMap.WF m1) (h2 : FlatMap.WF m2)
    (h : ∀ k, FlatMap.find m1 k = FlatMap.find m2 k) : m1 = m2 := by
  haveI : IsAntisymm (Nat × V) (fun a b => a.1 < b.1) :=
    ⟨fun a b hab hba => absurd hab (by omega)⟩
  have hs1 : List.Sorted (fun a b : Nat × V => a.1 < b.1) m1 := h1
  have hs2 : List.Sorted (fun a b : Nat × V => a.1 < b.1) m2 := h2
  refine List.eq_of_perm_of_sorted ?_ hs1 hs2
  rw [List.perm_ext_iff_of_nodup]
  · rintro ⟨k, v⟩
    rw [← FlatMap.find_eq_some_iff m1 h1, ← FlatMap.find_eq_some_iff m2 h2, h k]
  · exact List.Pairwise.imp (fun hab heq => by rw [heq] at hab; omega) h1
  · exact List.Pairwise.imp (fun hab heq => by rw [heq] at hab; omega) h2

namespace TracksUtilsMap

theorem one_lt_SIZE_MOD : 1 < SIZE_MOD := by decide

theorem TracksLength.find_step (h : FlatMap Nat) (e : Nat × Track) (L : Nat) :
    FlatMap.find (TracksLength.step h e) L
      = if FlatMap.size e.2.featPerView = L
        then some (((FlatMap.find h (FlatMap.size e.2.featPerView)).getD 0 + 1) % SIZE_MOD)
        else FlatMap.find h L := by
  cases hf : FlatMap.find h (FlatMap.size e.2.featPerView) with
  | none =>
    simp only [TracksLength.step, hf, StdMap.find_assign, Option.getD_none, Nat.zero_add,
      Nat.mod_eq_of_lt one_lt_SIZE_MOD]
  | some c =>
    simp only [TracksLength.step, hf, StdMap.find_assign, Option.getD_some]

/-- The value of the histogram at `L` after `TracksLength`, for any prior
histogram, in `std::size_t` arithmetic. -/
theorem TracksLength_find_mod (tracks : TracksMap) (h : FlatMap Nat) (L : Nat) :
    FlatMap.find (TracksLength tracks h) L
      = if countLength tracks L = 0 then FlatMap.find h L
        else some (((FlatMap.find h L).getD 0 + countLength tracks L) % SIZE_MOD) := by
  induction tracks generalizing h with
  | nil => simp [TracksLength, countLength]
  | cons e rest ih =>
    rw [TracksLength_cons, ih, TracksLength.find_step, countLength_cons]
    by_cases hL : FlatMap.size e.2.featPerView = L
    · subst hL
      simp only [if_true, Option.getD_some]
      by_cases hc : countLength rest (FlatMap.size e.2.featPerView) = 0
      · simp [hc]
      · rw [if_neg hc, if_neg (by omega), Nat.mod_add_mod]
        congr 2
        omega
    · simp only [hL, if_false, Nat.zero_add]

theorem TracksLength_find_twice (A B : TracksMap) (h : FlatMap Nat) (L : Nat) :
    FlatMap.find (TracksLength B (TracksLength A h)) L
      = if countLength A L + countLength B L = 0 then FlatMap.find h L
        else some (((FlatMap.find h L).getD 0 + countLength A L + countLength B L)
          % SIZE_MOD) := by
  rw [TracksLength_find_mod B, TracksLength_find_mod A]
  by_cases hA : countLength A L = 0
  · by_cases hB : countLength B L = 0
    · simp [hA, hB]
    · simp [hA, hB]
  · by_cases hB : countLength B L = 0
    · simp [hA, hB]
    · rw [if_neg hB, if_neg hA, if_neg (by omega)]
      simp only [Option.getD_some]
      rw [Nat.mod_add_mod]

/-- Claim C20, as amended.  `TracksLength` accumulates into the histogram it
is given, in `std::size_t` arithmetic: for every track map and every prior
histogram `h`, a length `L` that no track has keeps its entry, and otherwise
the value at `L` is `h[L]` (0 if absent) plus the number of tracks of length
`L`, modulo `2^64`, which is the plain sum whenever that is below `2^64`; no
key of `h` is removed; and applying it to `A` and then to `B` gives, at each
length, `h[L]` plus both counts modulo `2^64`, the same histogram whichever
of the two calls comes first. -/
theorem TracksLength_accumulates (A B : TracksMap) (h : FlatMap Nat)
    (hwf : FlatMap.WF h) :
    (∀ L, FlatMap.find (TracksLength A h) L
        = if countLength A L = 0 then FlatMap.find h L
          else some (((FlatMap.find h L).getD 0 + countLength A L) % SIZE_MOD))
    ∧ (∀ L, (FlatMap.find h L).getD 0 + countLength A L < SIZE_MOD →
        (FlatMap.find (TracksLength A h) L).getD 0
          = (FlatMap.find h L).getD 0 + countLength A L)
    ∧ (∀ L, (FlatMap.find h L).isSome → (FlatMap.find (TracksLength A h) L).isSome)
    ∧ (∀ L, FlatMap.find (TracksLength B (TracksLength A h)) L
        = if countLength A L + countLength B L = 0 then FlatMap.find h L
          else some (((FlatMap.find h L).getD 0 + countLength A L + countLength B L)
            % SIZE_MOD))
    ∧ TracksLength B (TracksLength A h) = TracksLength A (TracksLength B h) := by
  refine ⟨TracksLength_find_mod A h, ?_, ?_, TracksLength_find_twice A B h, ?_⟩
  · intro L hno
    rw [TracksLength_find_mod]
    by_cases hc : countLength A L = 0
    · simp [hc]
    · rw [if_neg hc, Nat.mod_eq_of_lt hno]
      rfl
  · intro L hL
    rw [TracksLength_find_mod]
    by_cases hc : countLength A L = 0
    · rw [if_pos hc]; exact hL
    · rw [if_neg hc]; rfl
  · apply FlatMap.eq_of_find_eq _ _
      (TracksLength_wf B _ (TracksLength_wf A h hwf))
      (TracksLength_wf A _ (TracksLength_wf B h hwf))
    intro L
    rw [TracksLength_find_twice A B, TracksLength_find_twice B A]
    by_cases hc : countLength A L + countLength B L = 0
    · rw [if_pos hc, if_pos (by omega)]
    · rw [if_neg hc, if_neg (by omega)]
      congr 2
      omega

/-- Witness of `TracksLength_accumulates`: a prior histogram with the lengths
2 and 5, a map with two tracks of length 2 and a map with one track of
length 3. -/
theorem TracksLength_accumulates_witness :
    FlatMap.WF ([(2, 7), (5, 1)] : FlatMap Nat)
    ∧ TracksLength
        [(0, { descType := 1, featPerView := [(3, 10), (4, 11)] }),
         (1, { descType := 1, featPerView := [(4, 12), (7, 13)] })]
        [(2, 7), (5, 1)] = [(2, 9), (5, 1)]
    ∧ TracksLength
        [(0, { descType := 1, featPerView := [(1, 1), (2, 2), (3, 3)] })]
        (TracksLength
          [(0, { descType := 1, featPerView := [(3, 10), (4, 11)] }),
           (1, { descType := 1, featPerView := [(4, 12), (7, 13)] })]
          [(2, 7), (5, 1)])
      = TracksLength
        [(0, { descType := 1, featPerView := [(3, 10), (4, 11)] }),
         (1, { descType := 1, featPerView := [(4, 12), (7, 13)] })]
        (TracksLength
          [(0, { descType := 1, featPerView := [(1, 1), (2, 2), (3, 3)] })]
          [(2, 7), (5, 1)]) :=
  ⟨by decide, by decide,
   (TracksLength_accumulates
      [(0, { descType := 1, featPerView := [(3, 10), (4, 11)] }),
       (1, { descType := 1, featPerView := [(4, 12), (7, 13)] })]
      [(0, { descType := 1, featPerView := [(1, 1), (2, 2), (3, 3)] })]
      [(2, 7), (5, 1)] (by decide)).2.2.2.2⟩

/-- Claim C20 as stated fails when a count leaves the range of
`std::size_t`.  With the prior histogram `{2 -> 2^64 - 1}` and one track of
length 2, `+= 1` wraps: the value at length 2 after the call is 0, not
`h[2]` plus the number of tracks of length 2. -/
theorem TracksLength_wraps_at_SIZE_MOD :
    FlatMap.WF ([(2, 18446744073709551615)] : FlatMap Nat)
    ∧ TracksLength [(0, { descType := 1, featPerView := [(3, 10), (4, 11)] })]
        [(2, 18446744073709551615)] = [(2, 0)]
    ∧ (FlatMap.find ([(2, 18446744073709551615)] : FlatMap Nat) 2).getD 0
        + countLength [(0, { descType := 1, featPerView := [(3, 10), (4, 11)] })] 2
        = 18446744073709551616
    ∧ (FlatMap.find
          (TracksLength [(0, { descType := 1, featPerView := [(3, 10), (4, 11)] })]
            [(2, 18446744073709551615)]) 2).getD 0
        ≠ (FlatMap.find ([(2, 18446744073709551615)] : FlatMap Nat) 2).getD 0
          + countLength [(0, { descType := 1, featPerView := [(3, 10), (4, 11)] })] 2 := by
  decide

end TracksUtilsMap

/-! ## The per-view index -/

namespace TracksPerView

theorem key_of_mem_pushBack (v t : Nat) (m : TracksPerView) (e : Nat × TrackIdSet)
    (he : e ∈ pushBack v t m) : e.1 = v ∨ ∃ e' ∈ m, e'.1 = e.1 := by
  induction m with
  | nil =>
    simp only [pushBack, List.mem_singleton] at he
    exact Or.inl (by rw [he])
  | cons e0 rest ih =>
    obtain ⟨k0, v0⟩ := e0
    unfold pushBack at he
    split_ifs at he with h1 h2
    · rcases List.mem_cons.mp he with he | he
      · exact Or.inl (by rw [he])
      · exact Or.inr ⟨e, he, rfl⟩
    · rcases List.mem_cons.mp he with he | he
      · exact Or.inl (by rw [he, h2])
      · exact Or.inr ⟨e, List.mem_cons_of_mem _ he, rfl⟩
    · rcases List.mem_cons.mp he with he | he
      · exact Or.inr ⟨(k0, v0), List.mem_cons_self _ _, by rw [he]⟩
      · rcases ih he with h | ⟨e', he', hk⟩
        · exact Or.inl h
        · exact Or.inr ⟨e', List.mem_cons_of_mem _ he', hk⟩

theorem pushBack_wf (v t : Nat) (m : TracksPerView) (h : FlatMap.WF m) :
    FlatMap.WF (pushBack v t m) := by
  induction m with
  | nil => simp [pushBack, FlatMap.WF]
  | cons e0 rest ih =>
    obtain ⟨k0, v0⟩ := e0
    unfold FlatMap.WF at h ih ⊢
    rw [List.pairwise_cons] at h
    unfold pushBack
    split_ifs with h1 h2
    · rw [List.pairwise_cons]
      refine ⟨?_, List.pairwise_cons.mpr h⟩
      intro e he
      rcases List.mem_cons.mp he with he | he
      · rw [he]; exact h1
      · exact lt_trans h1 (h.1 e he)
    · exact List.pairwise_cons.mpr h
    · rw [List.pairwise_cons]
      refine ⟨?_, ih h.2⟩
      intro e he
      rcases key_of_mem_pushBack v t rest e he with hk | ⟨e', he', hk⟩
      · show k0 < e.1
        omega
      · show k0 < e.1
        rw [← hk]
        exact h.1 e' he'

theorem find_pushBack (v t : Nat) (m : TracksPerView) (h : FlatMap.WF m) (v' : Nat) :
    FlatMap.find (pushBack v t m) v'
      = if v = v' then some ((FlatMap.find m v).getD [] ++ [t]) else FlatMap.find m v' := by
  induction m with
  | nil => simp [pushBack, FlatMap.find_cons, FlatMap.find_nil]
  | cons e0 rest ih =>
    obtain ⟨k0, ids0⟩ := e0
    unfold FlatMap.WF at h ih
    rw [List.pairwise_cons] at h
    unfold pushBack
    by_cases h1 : v < k0
    · have hnone : FlatMap.find ((k0, ids0) :: rest) v = none := by
        apply StdMap.find_eq_none_of_lt
        intro e he
        rcases List.mem_cons.mp he with he | he
        · rw [he]; exact h1
        · exact lt_trans h1 (h.1 e he)
      rw [if_pos h1, FlatMap.find_cons, hnone]
      rfl
    · rw [if_neg h1]
      by_cases h2 : v = k0
      · rw [if_pos h2, FlatMap.find_cons, FlatMap.find_cons, FlatMap.find_cons, h2]
        by_cases h3 : k0 = v'
        · simp only [h3, if_true, Option.getD_some]
        · simp only [h3, if_false]
      · have h2' : ¬ k0 = v := fun hk => h2 hk.symm
        rw [if_neg h2, FlatMap.find_cons, FlatMap.find_cons, FlatMap.find_cons, ih h.2,
          if_neg h2']
        by_cases h3 : k0 = v'
        · have h4 : ¬ v = v' := by omega
          simp only [h3, h4, if_true, if_false]
        · simp only [h3, if_false]

theorem listed_pushBack (v t : Nat) (m : TracksPerView) (h : FlatMap.WF m) (v' t' : Nat) :
    listed (pushBack v t m) v' t' ↔ listed m v' t' ∨ (v' = v ∧ t' = t) := by
  unfold listed
  rw [find_pushBack v t m h v']
  by_cases hv : v = v'
  · subst hv
    rw [if_pos rfl]
    cases hf : FlatMap.find m v with
    | none => simp
    | some ids => simp
  · rw [if_neg hv]
    have hv' : ¬ v' = v := fun hh => hv hh.symm
    simp [hv']

theorem ne_nil_of_mem_pushBack (v t : Nat) (m : TracksPerView)
    (h : ∀ e ∈ m, e.2 ≠ []) : ∀ e ∈ pushBack v t m, e.2 ≠ [] := by
  induction m with
  | nil =>
    intro e he
    simp only [pushBack, List.mem_singleton] at he
    rw [he]; simp
  | cons e0 rest ih =>
    obtain ⟨k0, ids0⟩ := e0
    intro e he
    unfold pushBack at he
    split_ifs at he with h1 h2
    · rcases List.mem_cons.mp he with he | he
      · rw [he]; simp
      · exact h e he
    · rcases List.mem_cons.mp he with he | he
      · rw [he]; simp
      · exact h e (List.mem_cons_of_mem _ he)
    · rcases List.mem_cons.mp he with he | he
      · rw [he]; exact h (k0, ids0) (List.mem_cons_self _ _)
      · exact ih (fun e' he' => h e' (List.mem_cons_of_mem _ he')) e he

end TracksPerView

theorem mem_sortDedup (ids : TrackIdSet) (t : Nat) : t ∈ sortDedup ids ↔ t ∈ ids := by
  unfold sortDedup
  rw [List.mem_dedup, List.mem_insertionSort]

theorem sortDedup_wf (ids : TrackIdSet) : StdSet.WF (sortDedup ids) := by
  unfold sortDedup StdSet.WF
  have hsorted : List.Sorted (fun a b : Nat => a ≤ b)
      ((ids.insertionSort (fun a b => a ≤ b)).dedup) :=
    List.Pairwise.sublist (List.dedup_sublist _)
      (List.sorted_insertionSort (fun a b : Nat => a ≤ b) ids)
  exact List.Sorted.lt_of_le hsorted (List.nodup_dedup _)

theorem FlatMap.find_map_values {V W : Type} (g : V → W) (m : FlatMap V) (k : Nat) :
    FlatMap.find (m.map (fun e => (e.1, g e.2))) k = (FlatMap.find m k).map g := by
  induction m with
  | nil => rfl
  | cons e rest ih =>
    obtain ⟨k0, v0⟩ := e
    rw [List.map_cons, FlatMap.find_cons, FlatMap.find_cons, ih]
    split_ifs <;> rfl

namespace TracksUtilsMap

theorem listed_foldl_pushBack (t : Nat) (feats : FlatMap Nat) (acc : TracksPerView)
    (hacc : FlatMap.WF acc) (v' t' : Nat) :
    FlatMap.WF (feats.foldl (fun acc2 feat => TracksPerView.pushBack feat.1 t acc2) acc)
    ∧ (TracksPerView.listed
        (feats.foldl (fun acc2 feat => TracksPerView.pushBack feat.1 t acc2) acc) v' t'
      ↔ TracksPerView.listed acc v' t' ∨ (t' = t ∧ (FlatMap.find feats v').isSome)) := by
  induction feats generalizing acc with
  | nil => simp [FlatMap.find_nil, hacc]
  | cons f rest ih =>
    obtain ⟨fv, ff⟩ := f
    rw [List.foldl_cons]
    obtain ⟨ih1, ih2⟩ := ih (TracksPerView.pushBack fv t acc)
      (TracksPerView.pushBack_wf fv t acc hacc)
    refine ⟨ih1, ?_⟩
    rw [ih2, TracksPerView.listed_pushBack fv t acc hacc, FlatMap.find_cons]
    by_cases hv : fv = v'
    · subst hv
      simp only [if_true, Option.isSome_some, and_true, true_and]
      tauto
    · have hv' : ¬ v' = fv := fun hh => hv hh.symm
      simp only [hv, hv', if_false, false_and, or_false]

theorem ne_nil_foldl_pushBack (t : Nat) (feats : FlatMap Nat) (acc : TracksPerView)
    (hacc : ∀ e ∈ acc, e.2 ≠ []) :
    ∀ e ∈ feats.foldl (fun acc2 feat => TracksPerView.pushBack feat.1 t acc2) acc,
      e.2 ≠ [] := by
  induction feats generalizing acc with
  | nil => simpa using hacc
  | cons f rest ih =>
    rw [List.foldl_cons]
    exact ih _ (TracksPerView.ne_nil_of_mem_pushBack f.1 t acc hacc)

theorem computeTracksPerView.listed_populate (tracks : TracksMap) (acc : TracksPerView)
    (hacc : FlatMap.WF acc) (v' t' : Nat) :
    FlatMap.WF (computeTracksPerView.populate tracks acc)
    ∧ (TracksPerView.listed (computeTracksPerView.populate tracks acc) v' t'
      ↔ TracksPerView.listed acc v' t'
        ∨ ∃ e ∈ tracks, e.1 = t' ∧ (FlatMap.find e.2.featPerView v').isSome) := by
  unfold computeTracksPerView.populate
  induction tracks generalizing acc with
  | nil => simp [hacc]
  | cons e rest ih =>
    rw [List.foldl_cons]
    obtain ⟨h1, h2⟩ := listed_foldl_pushBack e.1 e.2.featPerView acc hacc v' t'
    obtain ⟨ih1, ih2⟩ := ih _ h1
    refine ⟨ih1, ?_⟩
    rw [ih2, h2]
    simp only [List.mem_cons, exists_eq_or_imp]
    have hsym : t' = e.1 ↔ e.1 = t' := eq_comm
    rw [hsym]
    tauto

theorem computeTracksPerView.ne_nil_populate (tracks : TracksMap) (acc : TracksPerView)
    (hacc : ∀ e ∈ acc, e.2 ≠ []) :
    ∀ e ∈ computeTracksPerView.populate tracks acc, e.2 ≠ [] := by
  unfold computeTracksPerView.populate
  induction tracks generalizing acc with
  | nil => simpa using hacc
  | cons e rest ih =>
    rw [List.foldl_cons]
    exact ih _ (ne_nil_foldl_pushBack e.1 e.2.featPerView acc hacc)

theorem computeTracksPerView_find (tracks : TracksMap) (v : Nat) :
    FlatMap.find (computeTracksPerView tracks) v
      = (FlatMap.find (computeTracksPerView.populate tracks []) v).map sortDedup := by
  unfold computeTracksPerView
  exact FlatMap.find_map_values sortDedup _ v

theorem computeTracksPerView_wf (tracks : TracksMap) :
    FlatMap.WF (computeTracksPerView tracks) := by
  unfold computeTracksPerView FlatMap.WF
  rw [List.pairwise_map]
  exact (computeTracksPerView.listed_populate tracks [] List.Pairwise.nil 0 0).1

theorem computeTracksPerView_listed (tracks : TracksMap) (hwf : FlatMap.WF tracks)
    (v t : Nat) :
    TracksPerView.listed (computeTracksPerView tracks) v t
      ↔ ∃ tr, FlatMap.find tracks t = some tr ∧ (FlatMap.find tr.featPerView v).isSome := by
  have hpop := (computeTracksPerView.listed_populate tracks [] List.Pairwise.nil v t).2
  have hmap : TracksPerView.listed (computeTracksPerView tracks) v t
      ↔ TracksPerView.listed (computeTracksPerView.populate tracks []) v t := by
    unfold TracksPerView.listed
    rw [computeTracksPerView_find]
    cases FlatMap.find (computeTracksPerView.populate tracks []) v with
    | none => simp
    | some ids => simp [mem_sortDedup]
  rw [hmap, hpop]
  have hnil : ¬ TracksPerView.listed ([] : TracksPerView) v t := by
    rintro ⟨ids, hids, _⟩
    cases hids
  simp only [hnil, false_or]
  constructor
  · rintro ⟨e, he, rfl, hv⟩
    exact ⟨e.2, (FlatMap.find_eq_some_iff tracks hwf e.1 e.2).mpr he, hv⟩
  · rintro ⟨tr, htr, hv⟩
    exact ⟨(t, tr), FlatMap.mem_of_find_eq_some tracks t tr htr, rfl, hv⟩

theorem computeTracksPerView_sorted (tracks : TracksMap) (v : Nat) (ids : TrackIdSet)
    (h : FlatMap.find (computeTracksPerView tracks) v = some ids) :
    StdSet.WF ids ∧ ids ≠ [] := by
  rw [computeTracksPerView_find] at h
  cases hf : FlatMap.find (computeTracksPerView.populate tracks []) v with
  | none => rw [hf] at h; cases h
  | some raw =>
    rw [hf] at h
    simp only [Option.map_some', Option.some.injEq] at h
    subst h
    refine ⟨sortDedup_wf raw, ?_⟩
    have hraw : raw ≠ [] :=
      computeTracksPerView.ne_nil_populate tracks [] (by simp) (v, raw)
        (FlatMap.mem_of_find_eq_some _ v raw hf)
    obtain ⟨t, ht⟩ := List.exists_mem_of_ne_nil raw hraw
    exact List.ne_nil_of_mem ((mem_sortDedup raw t).mpr ht)

/-- Claim C13.  For a track map (keys strictly ascending), the per-view index
`computeTracksPerView(tracks)` is a well-formed map in which, for every view
`v` and track id `t`, `t` is listed for `v` iff `t` is a key of the map whose
track has an entry for `v`, and every list of the index is strictly
ascending (sorted and free of duplicates). -/
theorem computeTracksPerView_consistent (tracks : TracksMap) (hwf : FlatMap.WF tracks) :
    FlatMap.WF (computeTracksPerView tracks)
    ∧ (∀ v t, (∃ ids, FlatMap.find (computeTracksPerView tracks) v = some ids ∧ t ∈ ids)
        ↔ ∃ tr, FlatMap.find tracks t = some tr
          ∧ (FlatMap.find tr.featPerView v).isSome)
    ∧ (∀ v ids, FlatMap.find (computeTracksPerView tracks) v = some ids →
        List.Pairwise (fun a b => a < b) ids) :=
  ⟨computeTracksPerView_wf tracks,
   fun v t => computeTracksPerView_listed tracks hwf v t,
   fun v ids h => (computeTracksPerView_sorted tracks v ids h).1⟩

/-- Witness of `computeTracksPerView_consistent`: the two three-view tracks
of the scenario S5 of the spec. -/
theorem computeTracksPerView_consistent_witness :
    FlatMap.WF
        ([(0, { descType := 1, featPerView := [(1, 10), (2, 20), (3, 30)] }),
          (1, { descType := 1, featPerView := [(1, 11), (2, 21), (3, 31)] })] : TracksMap)
    ∧ computeTracksPerView
        [(0, { descType := 1, featPerView := [(1, 10), (2, 20), (3, 30)] }),
         (1, { descType := 1, featPerView := [(1, 11), (2, 21), (3, 31)] })]
        = [(1, [0, 1]), (2, [0, 1]), (3, [0, 1])]
    ∧ FlatMap.WF (computeTracksPerView
        [(0, { descType := 1, featPerView := [(1, 10), (2, 20), (3, 30)] }),
         (1, { descType := 1, featPerView := [(1, 11), (2, 21), (3, 31)] })]) :=
  ⟨by decide, by decide,
   (computeTracksPerView_consistent
      [(0, { descType := 1, featPerView := [(1, 10), (2, 20), (3, 30)] }),
       (1, { descType := 1, featPerView := [(1, 11), (2, 21), (3, 31)] })]
      (by decide)).1⟩

end TracksUtilsMap

/-! ## Common tracks of a set of views -/

theorem sweepMergeAux_sublist (x : Nat) (xs : List Nat) (recXs : List Nat → List Nat)
    (hrec : ∀ l, List.Sublist (recXs l) xs) (l2 : List Nat) :
    List.Sublist (sweepMergeAux x recXs l2) (x :: xs) := by
  induction l2 with
  | nil => exact List.nil_sublist _
  | cons y ys ih =>
    unfold sweepMergeAux
    split_ifs with h1 h2
    · exact List.Sublist.cons _ (hrec _)
    · exact List.Sublist.cons₂ _ (hrec _)
    · exact ih

theorem sweepMerge_sublist (l1 l2 : List Nat) : List.Sublist (sweepMerge l1 l2) l1 := by
  induction l1 generalizing l2 with
  | nil => exact List.Sublist.refl _
  | cons x xs ih => exact sweepMergeAux_sublist x xs (sweepMerge xs) ih l2

theorem sweepMerge_wf (l1 l2 : List Nat) (h1 : StdSet.WF l1) :
    StdSet.WF (sweepMerge l1 l2) :=
  List.Pairwise.sublist (sweepMerge_sublist l1 l2) h1

theorem mem_sweepMergeAux (x : Nat) (xs : List Nat) (recXs : List Nat → List Nat)
    (hx : ∀ a ∈ xs, x < a)
    (hrec : ∀ l, StdSet.WF l → ∀ z, z ∈ recXs l ↔ z ∈ xs ∧ z ∈ l)
    (l2 : List Nat) (h2 : StdSet.WF l2) (z : Nat) :
    z ∈ sweepMergeAux x recXs l2 ↔ z ∈ x :: xs ∧ z ∈ l2 := by
  induction l2 with
  | nil => simp [sweepMergeAux]
  | cons y ys ih =>
    have h2' := h2
    unfold StdSet.WF at h2'
    rw [List.pairwise_cons] at h2'
    unfold sweepMergeAux
    split_ifs with hlt heq
    · rw [hrec _ h2]
      simp only [List.mem_cons]
      constructor
      · rintro ⟨hz1, hz2⟩; exact ⟨Or.inr hz1, hz2⟩
      · rintro ⟨hz1 | hz1, hz2⟩
        · exfalso
          subst hz1
          rcases hz2 with hz2 | hz2
          · omega
          · have := h2'.1 z hz2; omega
        · exact ⟨hz1, hz2⟩
    · subst heq
      simp only [List.mem_cons]
      rw [hrec _ h2'.2]
      tauto
    · rw [ih h2'.2]
      simp only [List.mem_cons]
      constructor
      · rintro ⟨hz1, hz2⟩; exact ⟨hz1, Or.inr hz2⟩
      · rintro ⟨hz1, hz2 | hz2⟩
        · exfalso
          subst hz2
          rcases hz1 with hz1 | hz1
          · omega
          · have := hx z hz1; omega
        · exact ⟨hz1, hz2⟩

theorem mem_sweepMerge (l1 : List Nat) :
    StdSet.WF l1 → ∀ l2, StdSet.WF l2 → ∀ z, z ∈ sweepMerge l1 l2 ↔ z ∈ l1 ∧ z ∈ l2 := by
  induction l1 with
  | nil => intro _ l2 _ z; simp [sweepMerge]
  | cons x xs ih =>
    intro h1 l2 h2 z
    unfold StdSet.WF at h1
    rw [List.pairwise_cons] at h1
    exact mem_sweepMergeAux x xs (sweepMerge xs) h1.1 (ih h1.2) l2 h2 z

namespace TracksUtilsMap

theorem GetCommonTracksInImagesPerView.shortest_mem (perView : TracksPerView)
    (S : List Nat) (hne : S ≠ []) :
    ∃ v0, GetCommonTracksInImagesPerView.shortest perView S = some v0 ∧ v0 ∈ S := by
  induction S with
  | nil => exact absurd rfl hne
  | cons v rest ih =>
    unfold GetCommonTracksInImagesPerView.shortest
    cases hrest : GetCommonTracksInImagesPerView.shortest perView rest with
    | none => exact ⟨v, rfl, List.mem_cons_self _ _⟩
    | some u =>
      have hu : u ∈ rest := by
        by_cases hr : rest = []
        · subst hr
          simp [GetCommonTracksInImagesPerView.shortest] at hrest
        · obtain ⟨v0, h1, h2⟩ := ih hr
          rw [hrest] at h1
          cases h1
          exact h2
      simp only []
      split_ifs
      · exact ⟨v, rfl, List.mem_cons_self _ _⟩
      · exact ⟨u, rfl, List.mem_cons_of_mem _ hu⟩

theorem tracksOf_wf (perView : TracksPerView)
    (hsorted : ∀ v ids, FlatMap.find perView v = some ids →
      List.Pairwise (fun a b => a < b) ids) (v : Nat) :
    StdSet.WF (TracksPerView.tracksOf perView v) := by
  unfold TracksPerView.tracksOf
  cases hf : FlatMap.find perView v with
  | none => exact List.Pairwise.nil
  | some ids => exact hsorted v ids hf

theorem mem_tracksOf (perView : TracksPerView) (v t : Nat) :
    t ∈ TracksPerView.tracksOf perView v
      ↔ ∃ ids, FlatMap.find perView v = some ids ∧ t ∈ ids := by
  unfold TracksPerView.tracksOf
  cases hf : FlatMap.find perView v with
  | none => simp
  | some ids => simp

theorem mem_foldl_sweepMerge (perView : TracksPerView)
    (hsorted : ∀ v ids, FlatMap.find perView v = some ids →
      List.Pairwise (fun a b => a < b) ids)
    (vs : List Nat) (cand : List Nat) (hcand : StdSet.WF cand) (z : Nat) :
    StdSet.WF (vs.foldl
      (fun candidates v => sweepMerge candidates (TracksPerView.tracksOf perView v)) cand)
    ∧ (z ∈ vs.foldl
        (fun candidates v => sweepMerge candidates (TracksPerView.tracksOf perView v)) cand
      ↔ z ∈ cand ∧ ∀ v ∈ vs, z ∈ TracksPerView.tracksOf perView v) := by
  induction vs generalizing cand with
  | nil => simp [hcand]
  | cons v rest ih =>
    rw [List.foldl_cons]
    obtain ⟨ih1, ih2⟩ := ih _ (sweepMerge_wf cand _ hcand)
    refine ⟨ih1, ?_⟩
    rw [ih2, mem_sweepMerge _ hcand _ (tracksOf_wf perView hsorted v)]
    simp only [List.mem_cons, forall_eq_or_imp]
    tauto

/-- The sweep over a per-view index with ascending lists yields, for a
non-empty set of views, the well-formed set of the ids listed for every view
of the set. -/
theorem GetCommonTracksInImagesPerView_spec (S : StdSet) (perView : TracksPerView)
    (hsorted : ∀ v ids, FlatMap.find perView v = some ids →
      List.Pairwise (fun a b => a < b) ids)
    (hne : S ≠ []) :
    StdSet.WF (GetCommonTracksInImagesPerView S perView)
      ∧ ∀ z, z ∈ GetCommonTracksInImagesPerView S perView
          ↔ ∀ v ∈ S, z ∈ TracksPerView.tracksOf perView v := by
  obtain ⟨v0, hv0, hmem⟩ := GetCommonTracksInImagesPerView.shortest_mem perView S hne
  unfold GetCommonTracksInImagesPerView
  rw [hv0]
  refine ⟨?_, ?_⟩
  · exact (mem_foldl_sweepMerge perView hsorted _ _ (tracksOf_wf perView hsorted v0) 0).1
  · intro z
    rw [(mem_foldl_sweepMerge perView hsorted _ _ (tracksOf_wf perView hsorted v0) z).2]
    constructor
    · rintro ⟨h0, hrest⟩ v hv
      by_cases hvv : v = v0
      · rw [hvv]; exact h0
      · exact hrest v (List.mem_filter.mpr ⟨hv, by simpa using hvv⟩)
    · intro hall
      exact ⟨hall v0 hmem, fun v hv => hall v (List.mem_filter.mp hv).1⟩

theorem mem_keys_GetCommonTracksInImages (S : StdSet) (tracks : TracksMap)
    (hwf : FlatMap.WF tracks) (t : Nat) :
    t ∈ (GetCommonTracksInImages S tracks).map Prod.fst
      ↔ ∃ tr, FlatMap.find tracks t = some tr
        ∧ ∀ v ∈ S, (FlatMap.find tr.featPerView v).isSome := by
  unfold GetCommonTracksInImages
  rw [List.mem_map]
  constructor
  · rintro ⟨e, he, rfl⟩
    rw [List.mem_filter, List.all_eq_true] at he
    exact ⟨e.2, (FlatMap.find_eq_some_iff tracks hwf e.1 e.2).mpr he.1, he.2⟩
  · rintro ⟨tr, htr, hall⟩
    refine ⟨(t, tr), ?_, rfl⟩
    rw [List.mem_filter, List.all_eq_true]
    exact ⟨FlatMap.mem_of_find_eq_some tracks t tr htr, hall⟩

/-- Claim C14, as amended.  For a track map, a per-view index consistent
with it whose lists are sorted ascending, and every non-empty set of views
`S`, the set of track ids produced by `GetCommonTracksInImages` on the
per-view index equals the key set of the track map produced by
`GetCommonTracksInImages` on the track map, namely the ids of the tracks that
have an entry for every view of `S`. -/
theorem GetCommonTracksInImages_equivalence (tracks : TracksMap)
    (perView : TracksPerView) (S : StdSet)
    (hwf : FlatMap.WF tracks)
    (hcons : ∀ v t, (∃ ids, FlatMap.find perView v = some ids ∧ t ∈ ids) ↔
      ∃ tr, FlatMap.find tracks t = some tr ∧ (FlatMap.find tr.featPerView v).isSome)
    (hsorted : ∀ v ids, FlatMap.find perView v = some ids →
      List.Pairwise (fun a b => a < b) ids)
    (hne : S ≠ []) :
    GetCommonTracksInImagesPerView S perView
        = (GetCommonTracksInImages S tracks).map Prod.fst
    ∧ ∀ t, t ∈ (GetCommonTracksInImages S tracks).map Prod.fst
        ↔ ∃ tr, FlatMap.find tracks t = some tr
          ∧ ∀ v ∈ S, (FlatMap.find tr.featPerView v).isSome := by
  refine ⟨?_, mem_keys_GetCommonTracksInImages S tracks hwf⟩
  obtain ⟨hrwf, hrmem⟩ := GetCommonTracksInImagesPerView_spec S perView hsorted hne
  have hkeys_wf : StdSet.WF ((GetCommonTracksInImages S tracks).map Prod.fst) := by
    apply keys_pairwise_of_wf
    unfold GetCommonTracksInImages
    exact List.Pairwise.sublist (List.filter_sublist _) hwf
  apply StdSet.ext_of_wf _ _ hrwf hkeys_wf
  intro t
  rw [hrmem, mem_keys_GetCommonTracksInImages S tracks hwf]
  constructor
  · intro hall
    obtain ⟨v0, hv0⟩ := List.exists_mem_of_ne_nil S hne
    obtain ⟨tr, htr, _⟩ := (hcons v0 t).mp ((mem_tracksOf perView v0 t).mp (hall v0 hv0))
    refine ⟨tr, htr, ?_⟩
    intro v hv
    obtain ⟨tr', htr', hview⟩ := (hcons v t).mp ((mem_tracksOf perView v t).mp (hall v hv))
    rw [htr] at htr'
    cases htr'
    exact hview
  · rintro ⟨tr, htr, hall⟩ v hv
    exact (mem_tracksOf perView v t).mpr ((hcons v t).mpr ⟨tr, htr, hall v hv⟩)

/-- Witness of `GetCommonTracksInImages_equivalence`: the scenario S6 of the
spec with a third track that misses view 3, on the computed per-view index
and the views 1 and 3. -/
theorem GetCommonTracksInImages_equivalence_witness :
    FlatMap.WF
        ([(0, { descType := 1, featPerView := [(1, 10), (2, 20), (3, 30)] }),
          (1, { descType := 1, featPerView := [(1, 11), (2, 21), (3, 31)] }),
          (2, { descType := 1, featPerView := [(1, 12), (2, 22)] })] : TracksMap)
    ∧ ([1, 3] : StdSet) ≠ []
    ∧ GetCommonTracksInImagesPerView [1, 3]
        (computeTracksPerView
          [(0, { descType := 1, featPerView := [(1, 10), (2, 20), (3, 30)] }),
           (1, { descType := 1, featPerView := [(1, 11), (2, 21), (3, 31)] }),
           (2, { descType := 1, featPerView := [(1, 12), (2, 22)] })])
        = [0, 1]
    ∧ GetCommonTracksInImagesPerView [1, 3]
        (computeTracksPerView
          [(0, { descType := 1, featPerView := [(1, 10), (2, 20), (3, 30)] }),
           (1, { descType := 1, featPerView := [(1, 11), (2, 21), (3, 31)] }),
           (2, { descType := 1, featPerView := [(1, 12), (2, 22)] })])
        = (GetCommonTracksInImages [1, 3]
          [(0, { descType := 1, featPerView := [(1, 10), (2, 20), (3, 30)] }),
           (1, { descType := 1, featPerView := [(1, 11), (2, 21), (3, 31)] }),
           (2, { descType := 1, featPerView := [(1, 12), (2, 22)] })]).map Prod.fst :=
  ⟨by decide, by decide, by decide,
   (GetCommonTracksInImages_equivalence
      [(0, { descType := 1, featPerView := [(1, 10), (2, 20), (3, 30)] }),
       (1, { descType := 1, featPerView := [(1, 11), (2, 21), (3, 31)] }),
       (2, { descType := 1, featPerView := [(1, 12), (2, 22)] })]
      (computeTracksPerView
        [(0, { descType := 1, featPerView := [(1, 10), (2, 20), (3, 30)] }),
         (1, { descType := 1, featPerView := [(1, 11), (2, 21), (3, 31)] }),
         (2, { descType := 1, featPerView := [(1, 12), (2, 22)] })])
      [1, 3] (by decide)
      (fun v t => computeTracksPerView_listed _ (by decide) v t)
      (fun v ids h => (computeTracksPerView_sorted _ v ids h).1)
      (by decide)).1⟩

/-- Claim C14 as stated fails for the empty set of views, whatever set the
per-view overload returns there.  The empty track map and the track map with
the single track 0 that has no view have the same per-view index, the empty
one; with `S` empty every track qualifies on the track map, so the key sets
of the two results are `{}` and `{0}`, and no function of `S` and the
per-view index equals both.  The per-view overload returns `{}`, which
differs from `{0}`; it also differs from the key set `{0}` of the track map
with the single two-view track 0. -/
theorem GetCommonTracksInImages_empty_views_differ :
    FlatMap.WF ([(0, { descType := 1, featPerView := [] })] : TracksMap)
    ∧ computeTracksPerView [(0, { descType := 1, featPerView := [] })]
        = computeTracksPerView []
    ∧ (GetCommonTracksInImages [] []).map Prod.fst = []
    ∧ (GetCommonTracksInImages []
        [(0, { descType := 1, featPerView := [] })]).map Prod.fst = [0]
    ∧ (¬ ∃ f : StdSet → TracksPerView → StdSet,
        f [] (computeTracksPerView [])
            = (GetCommonTracksInImages [] []).map Prod.fst
        ∧ f [] (computeTracksPerView [(0, { descType := 1, featPerView := [] })])
            = (GetCommonTracksInImages []
                [(0, { descType := 1, featPerView := [] })]).map Prod.fst)
    ∧ GetCommonTracksInImagesPerView []
        (computeTracksPerView [(0, { descType := 1, featPerView := [] })])
        ≠ (GetCommonTracksInImages []
            [(0, { descType := 1, featPerView := [] })]).map Prod.fst
    ∧ GetCommonTracksInImagesPerView []
        (computeTracksPerView
          [(0, { descType := 1, featPerView := [(1, 10), (2, 20)] })])
        ≠ (GetCommonTracksInImages []
            [(0, { descType := 1, featPerView := [(1, 10), (2, 20)] })]).map Prod.fst := by
  refine ⟨by decide, by decide, by decide, by decide, ?_, by decide, by decide⟩
  rintro ⟨f, h1, h2⟩
  have hidx : computeTracksPerView [(0, { descType := 1, featPerView := [] })]
      = computeTracksPerView [] := by decide
  rw [hidx, h1] at h2
  revert h2
  decide

/-- Witness of `ImageIdInTracks_overloads_agree` on the computed per-view
index of three tracks. -/
theorem ImageIdInTracks_overloads_agree_witness :
    FlatMap.WF
        ([(0, { descType := 1, featPerView := [(1, 10), (2, 20), (3, 30)] }),
          (1, { descType := 1, featPerView := [(1, 11), (2, 21), (3, 31)] }),
          (2, { descType := 1, featPerView := [(1, 12), (5, 22)] })] : TracksMap)
    ∧ ImageIdInTracks
        [(0, { descType := 1, featPerView := [(1, 10), (2, 20), (3, 30)] }),
         (1, { descType := 1, featPerView := [(1, 11), (2, 21), (3, 31)] }),
         (2, { descType := 1, featPerView := [(1, 12), (5, 22)] })] [] = [1, 2, 3, 5]
    ∧ ImageIdInTracksPerView
        (computeTracksPerView
          [(0, { descType := 1, featPerView := [(1, 10), (2, 20), (3, 30)] }),
           (1, { descType := 1, featPerView := [(1, 11), (2, 21), (3, 31)] }),
           (2, { descType := 1, featPerView := [(1, 12), (5, 22)] })]) []
        = ImageIdInTracks
          [(0, { descType := 1, featPerView := [(1, 10), (2, 20), (3, 30)] }),
           (1, { descType := 1, featPerView := [(1, 11), (2, 21), (3, 31)] }),
           (2, { descType := 1, featPerView := [(1, 12), (5, 22)] })] [] :=
  ⟨by decide, by decide,
   ImageIdInTracks_overloads_agree
      [(0, { descType := 1, featPerView := [(1, 10), (2, 20), (3, 30)] }),
       (1, { descType := 1, featPerView := [(1, 11), (2, 21), (3, 31)] }),
       (2, { descType := 1, featPerView := [(1, 12), (5, 22)] })]
      (computeTracksPerView
        [(0, { descType := 1, featPerView := [(1, 10), (2, 20), (3, 30)] }),
         (1, { descType := 1, featPerView := [(1, 11), (2, 21), (3, 31)] }),
         (2, { descType := 1, featPerView := [(1, 12), (5, 22)] })])
      (by decide)
      (fun v t => computeTracksPerView_listed _ (by decide) v t)
      (fun v ids h => (computeTracksPerView_sorted _ v ids h).2)⟩

/-- Witness of `GetTracksInImage_fast_slow_agree` on the computed per-view
index of three tracks, for view 3. -/
theorem GetTracksInImage_fast_slow_agree_witness :
    FlatMap.WF
        ([(0, { descType := 1, featPerView := [(1, 10), (2, 20), (3, 30)] }),
          (1, { descType := 1, featPerView := [(1, 11), (2, 21), (3, 31)] }),
          (2, { descType := 1, featPerView := [(1, 12), (5, 22)] })] : TracksMap)
    ∧ GetTracksInImage 3
        [(0, { descType := 1, featPerView := [(1, 10), (2, 20), (3, 30)] }),
         (1, { descType := 1, featPerView := [(1, 11), (2, 21), (3, 31)] }),
         (2, { descType := 1, featPerView := [(1, 12), (5, 22)] })] [] = [0, 1]
    ∧ GetTracksInImageFast 3
        (computeTracksPerView
          [(0, { descType := 1, featPerView := [(1, 10), (2, 20), (3, 30)] }),
           (1, { descType := 1, featPerView := [(1, 11), (2, 21), (3, 31)] }),
           (2, { descType := 1, featPerView := [(1, 12), (5, 22)] })]) []
        = GetTracksInImage 3
          [(0, { descType := 1, featPerView := [(1, 10), (2, 20), (3, 30)] }),
           (1, { descType := 1, featPerView := [(1, 11), (2, 21), (3, 31)] }),
           (2, { descType := 1, featPerView := [(1, 12), (5, 22)] })] [] :=
  ⟨by decide, by decide,
   GetTracksInImage_fast_slow_agree
      [(0, { descType := 1, featPerView := [(1, 10), (2, 20), (3, 30)] }),
       (1, { descType := 1, featPerView := [(1, 11), (2, 21), (3, 31)] }),
       (2, { descType := 1, featPerView := [(1, 12), (5, 22)] })]
      (computeTracksPerView
        [(0, { descType := 1, featPerView := [(1, 10), (2, 20), (3, 30)] }),
         (1, { descType := 1, featPerView := [(1, 11), (2, 21), (3, 31)] }),
         (2, { descType := 1, featPerView := [(1, 12), (5, 22)] })])
      3 (by decide)
      (fun v t => computeTracksPerView_listed _ (by decide) v t)⟩

end TracksUtilsMap

/-! ## Fusion of the matches into classes -/

theorem eqvGen_snoc_iff {α : Type} (E : List (α × α)) (a b u v : α) :
    Relation.EqvGen (fun x y => (x, y) ∈ E ++ [(a, b)]) u v ↔
      Relation.EqvGen (fun x y => (x, y) ∈ E) u v
      ∨ (Relation.EqvGen (fun x y => (x, y) ∈ E) u a
          ∧ Relation.EqvGen (fun x y => (x, y) ∈ E) b v)
      ∨ (Relation.EqvGen (fun x y => (x, y) ∈ E) u b
          ∧ Relation.EqvGen (fun x y => (x, y) ∈ E) a v) := by
  constructor
  · intro h
    induction h with
    | rel x y hxy =>
      rcases List.mem_append.mp hxy with h | h
      · exact Or.inl (Relation.EqvGen.rel _ _ h)
      · simp only [List.mem_singleton, Prod.mk.injEq] at h
        obtain ⟨rfl, rfl⟩ := h
        exact Or.inr (Or.inl ⟨Relation.EqvGen.refl _, Relation.EqvGen.refl _⟩)
    | refl x => exact Or.inl (Relation.EqvGen.refl _)
    | symm x y _ ih =>
      rcases ih with h | ⟨h1, h2⟩ | ⟨h1, h2⟩
      · exact Or.inl (Relation.EqvGen.symm _ _ h)
      · exact Or.inr (Or.inr
          ⟨Relation.EqvGen.symm _ _ h2, Relation.EqvGen.symm _ _ h1⟩)
      · exact Or.inr (Or.inl
          ⟨Relation.EqvGen.symm _ _ h2, Relation.EqvGen.symm _ _ h1⟩)
    | trans x y z _ _ ih1 ih2 =>
      rcases ih1 with h | ⟨h1, h2⟩ | ⟨h1, h2⟩
      · rcases ih2 with k | ⟨k1, k2⟩ | ⟨k1, k2⟩
        · exact Or.inl (Relation.EqvGen.trans _ _ _ h k)
        · exact Or.inr (Or.inl ⟨Relation.EqvGen.trans _ _ _ h k1, k2⟩)
        · exact Or.inr (Or.inr ⟨Relation.EqvGen.trans _ _ _ h k1, k2⟩)
      · rcases ih2 with k | ⟨k1, k2⟩ | ⟨k1, k2⟩
        · exact Or.inr (Or.inl ⟨h1, Relation.EqvGen.trans _ _ _ h2 k⟩)
        · exact Or.inr (Or.inl ⟨h1, k2⟩)
        · exact Or.inl (Relation.EqvGen.trans _ _ _ h1 k2)
      · rcases ih2 with k | ⟨k1, k2⟩ | ⟨k1, k2⟩
        · exact Or.inr (Or.inr ⟨h1, Relation.EqvGen.trans _ _ _ h2 k⟩)
        · exact Or.inl (Relation.EqvGen.trans _ _ _ h1 k2)
        · exact Or.inr (Or.inr ⟨h1, k2⟩)
  · have hmono : ∀ x y, Relation.EqvGen (fun x y => (x, y) ∈ E) x y →
        Relation.EqvGen (fun x y => (x, y) ∈ E ++ [(a, b)]) x y := by
      intro x y hxy
      exact Relation.EqvGen.mono (fun p q hpq => List.mem_append_left _ hpq) hxy
    have hab : Relation.EqvGen (fun x y => (x, y) ∈ E ++ [(a, b)]) a b :=
      Relation.EqvGen.rel _ _ (List.mem_append_right _ (List.mem_singleton_self _))
    rintro (h | ⟨h1, h2⟩ | ⟨h1, h2⟩)
    · exact hmono _ _ h
    · exact Relation.EqvGen.trans _ _ _ (hmono _ _ h1)
        (Relation.EqvGen.trans _ _ _ hab (hmono _ _ h2))
    · exact Relation.EqvGen.trans _ _ _ (hmono _ _ h1)
        (Relation.EqvGen.trans _ _ _ (Relation.EqvGen.symm _ _ hab) (hmono _ _ h2))

theorem eqvGen_isolated {α : Type} (E : List (α × α)) (k : α)
    (hk : ∀ e ∈ E, e.1 ≠ k ∧ e.2 ≠ k) (u v : α)
    (h : Relation.EqvGen (fun x y => (x, y) ∈ E) u v) : u = k ↔ v = k := by
  induction h with
  | rel x y hxy =>
    have := hk (x, y) hxy
    exact ⟨fun hx => absurd hx this.1, fun hy => absurd hy this.2⟩
  | refl x => exact Iff.rfl
  | symm x y _ ih => exact ih.symm
  | trans x y z _ _ ih1 ih2 => exact ih1.trans ih2

namespace TracksBuilder

theorem handleOf_lt (key : IndexedFeaturePair) (l : List IndexedFeaturePair)
    (h : key ∈ l) : handleOf key l < l.length := by
  induction l with
  | nil => simp at h
  | cons k rest ih =>
    unfold handleOf
    split_ifs with hk
    · simp
    · have : key ∈ rest := by
        rcases List.mem_cons.mp h with h | h
        · exact absurd h.symm hk
        · exact h
      have := ih this
      simp only [List.length_cons]
      omega

theorem handleOf_append_of_mem (key : IndexedFeaturePair)
    (l l2 : List IndexedFeaturePair) (h : key ∈ l) :
    handleOf key (l ++ l2) = handleOf key l := by
  induction l with
  | nil => simp at h
  | cons k rest ih =>
    rw [List.cons_append]
    unfold handleOf
    split_ifs with hk
    · rfl
    · have : key ∈ rest := by
        rcases List.mem_cons.mp h with h | h
        · exact absurd h.symm hk
        · exact h
      rw [ih this]

theorem handleOf_append_self (key : IndexedFeaturePair)
    (l : List IndexedFeaturePair) (h : key ∉ l) :
    handleOf key (l ++ [key]) = l.length := by
  induction l with
  | nil => simp [handleOf]
  | cons k rest ih =>
    rw [List.cons_append]
    unfold handleOf
    have hk : ¬ k = key := fun hk => h (by rw [hk]; exact List.mem_cons_self _ _)
    rw [if_neg hk, ih (fun hmem => h (List.mem_cons_of_mem _ hmem))]
    simp

theorem rootD_of_not_lt (uf : Batteries.UnionFind) (n : Nat) (h : ¬ n < uf.size) :
    uf.rootD n = n := by
  unfold Batteries.UnionFind.rootD
  rw [dif_neg h]

theorem size_push (uf : Batteries.UnionFind) : uf.push.size = uf.size + 1 := by
  simp [Batteries.UnionFind.push, Batteries.UnionFind.size]

theorem size_union (uf : Batteries.UnionFind) (x y : Fin uf.size) :
    (uf.union x y).size = uf.size := by
  simp [Batteries.UnionFind.union, Batteries.UnionFind.link, Batteries.UnionFind.size]

theorem Inv_empty : Inv empty [] := by
  refine ⟨rfl, List.nodup_nil, rfl, ?_, ?_⟩
  · intro e he; simp at he
  · intro u hu; simp [empty] at hu

/-- Inserting a key keeps the invariant for the same edges; the returned
handle is the position of the key, and the keys already there keep theirs. -/
theorem Inv_insert (tb : TracksBuilder)
    (E : List (IndexedFeaturePair × IndexedFeaturePair)) (key : IndexedFeaturePair)
    (h : Inv tb E) :
    Inv (tb.insert key).1 E
    ∧ key ∈ (tb.insert key).1.nodes
    ∧ (tb.insert key).2 = handleOf key (tb.insert key).1.nodes
    ∧ (∀ x ∈ tb.nodes, x ∈ (tb.insert key).1.nodes
        ∧ handleOf x (tb.insert key).1.nodes = handleOf x tb.nodes) := by
  obtain ⟨hsize, hnodup, herased, hends, hequiv⟩ := h
  unfold insert
  by_cases hmem : key ∈ tb.nodes
  · rw [if_pos hmem]
    exact ⟨⟨hsize, hnodup, herased, hends, hequiv⟩, hmem, rfl, fun x hx => ⟨hx, rfl⟩⟩
  · rw [if_neg hmem]
    have hiso : ∀ e ∈ E, e.1 ≠ key ∧ e.2 ≠ key := by
      intro e he
      obtain ⟨h1, h2⟩ := hends e he
      exact ⟨fun hk => hmem (hk ▸ h1), fun hk => hmem (hk ▸ h2)⟩
    have hold : ∀ x ∈ tb.nodes, handleOf x (tb.nodes ++ [key]) = handleOf x tb.nodes :=
      fun x hx => handleOf_append_of_mem x tb.nodes [key] hx
    have hnew : handleOf key (tb.nodes ++ [key]) = tb.nodes.length :=
      handleOf_append_self key tb.nodes hmem
    have hrootNew : tb.tracksUF.rootD tb.nodes.length = tb.nodes.length :=
      rootD_of_not_lt _ _ (by rw [hsize]; exact lt_irrefl _)
    have hrootOld : ∀ x ∈ tb.nodes,
        tb.tracksUF.rootD (handleOf x tb.nodes) < tb.nodes.length := by
      intro x hx
      rw [← hsize, Batteries.UnionFind.rootD_lt, hsize]
      exact handleOf_lt x tb.nodes hx
    refine ⟨⟨?_, ?_, herased, ?_, ?_⟩, ?_, ?_, ?_⟩
    · show tb.tracksUF.push.size = (tb.nodes ++ [key]).length
      rw [size_push, hsize]; simp
    · show (tb.nodes ++ [key]).Nodup
      rw [List.nodup_append]
      refine ⟨hnodup, List.nodup_singleton _, ?_⟩
      intro x hx hx2
      simp only [List.mem_singleton] at hx2
      exact hmem (hx2 ▸ hx)
    · intro e he
      obtain ⟨h1, h2⟩ := hends e he
      exact ⟨List.mem_append_left _ h1, List.mem_append_left _ h2⟩
    · intro u hu0 v hv0
      show tb.tracksUF.push.rootD (handleOf u (tb.nodes ++ [key]))
          = tb.tracksUF.push.rootD (handleOf v (tb.nodes ++ [key])) ↔ _
      rw [Batteries.UnionFind.root_push, Batteries.UnionFind.root_push]
      have hu1 : u ∈ tb.nodes ∨ u = key := by
        rcases List.mem_append.mp hu0 with h | h
        · exact Or.inl h
        · exact Or.inr (List.mem_singleton.mp h)
      have hv1 : v ∈ tb.nodes ∨ v = key := by
        rcases List.mem_append.mp hv0 with h | h
        · exact Or.inl h
        · exact Or.inr (List.mem_singleton.mp h)
      rcases hu1 with hu | hu
      · rcases hv1 with hv | hv
        · rw [hold u hu, hold v hv]
          exact hequiv u hu v hv
        · rw [hv, hold u hu, hnew, hrootNew]
          constructor
          · intro heq
            have := hrootOld u hu
            omega
          · intro hconn
            have huk := (eqvGen_isolated E key hiso u key hconn).mpr rfl
            exact absurd (huk ▸ hu) hmem
      · rcases hv1 with hv | hv
        · rw [hu, hold v hv, hnew, hrootNew]
          constructor
          · intro heq
            have := hrootOld v hv
            omega
          · intro hconn
            have hvk := (eqvGen_isolated E key hiso key v hconn).mp rfl
            exact absurd (hvk ▸ hv) hmem
        · rw [hu, hv]
          exact ⟨fun _ => Relation.EqvGen.refl _, fun _ => rfl⟩
    · exact List.mem_append_right _ (List.mem_singleton_self _)
    · exact hnew.symm
    · intro x hx
      exact ⟨List.mem_append_left _ hx, hold x hx⟩

/-- Uniting the classes of two nodes keeps the invariant for the edges
extended by the edge between the two nodes. -/
theorem Inv_union (tb : TracksBuilder)
    (E : List (IndexedFeaturePair × IndexedFeaturePair)) (a b : IndexedFeaturePair)
    (h : Inv tb E) (ha : a ∈ tb.nodes) (hb : b ∈ tb.nodes) :
    Inv (tb.union (handleOf a tb.nodes) (handleOf b tb.nodes)) (E ++ [(a, b)]) := by
  obtain ⟨hsize, hnodup, herased, hends, hequiv⟩ := h
  have hlt : handleOf a tb.nodes < tb.tracksUF.size
      ∧ handleOf b tb.nodes < tb.tracksUF.size := by
    rw [hsize]
    exact ⟨handleOf_lt a tb.nodes ha, handleOf_lt b tb.nodes hb⟩
  unfold union
  rw [dif_pos hlt]
  refine ⟨?_, hnodup, herased, ?_, ?_⟩
  · show (tb.tracksUF.union _ _).size = tb.nodes.length
    rw [size_union, hsize]
  · intro e he
    rcases List.mem_append.mp he with he | he
    · exact hends e he
    · simp only [List.mem_singleton] at he
      rw [he]
      exact ⟨ha, hb⟩
  · intro u hu v hv
    show (tb.tracksUF.union ⟨handleOf a tb.nodes, hlt.1⟩ ⟨handleOf b tb.nodes, hlt.2⟩).rootD
          (handleOf u tb.nodes)
        = (tb.tracksUF.union ⟨handleOf a tb.nodes, hlt.1⟩
            ⟨handleOf b tb.nodes, hlt.2⟩).rootD (handleOf v tb.nodes) ↔ _
    have hunion := @Batteries.UnionFind.equiv_union (handleOf u tb.nodes)
      (handleOf v tb.nodes) tb.tracksUF ⟨handleOf a tb.nodes, hlt.1⟩
      ⟨handleOf b tb.nodes, hlt.2⟩
    unfold Batteries.UnionFind.Equiv at hunion
    rw [hunion, eqvGen_snoc_iff, hequiv u hu v hv, hequiv u hu a ha, hequiv b hb v hv,
      hequiv u hu b hb, hequiv a ha v hv]

theorem Inv_addMatch (tb : TracksBuilder)
    (E : List (IndexedFeaturePair × IndexedFeaturePair)) (a b : IndexedFeaturePair)
    (h : Inv tb E) : Inv (tb.addMatch a b) (E ++ [(a, b)]) := by
  obtain ⟨h1, ha1, hh1, _⟩ := Inv_insert tb E a h
  obtain ⟨h2, hb2, hh2, hkeep⟩ := Inv_insert (tb.insert a).1 E b h1
  obtain ⟨ha2, hha2⟩ := hkeep a ha1
  unfold addMatch
  simp only []
  rw [hh1, hh2, ← hha2]
  exact Inv_union _ E a b h2 ha2 hb2

theorem Inv_foldl_addMatch (es : List (IndexedFeaturePair × IndexedFeaturePair))
    (tb : TracksBuilder) (E : List (IndexedFeaturePair × IndexedFeaturePair))
    (h : Inv tb E) :
    Inv (es.foldl (fun tb1 e => tb1.addMatch e.1 e.2) tb) (E ++ es) := by
  induction es generalizing tb E with
  | nil => simpa using h
  | cons e rest ih =>
    rw [List.foldl_cons]
    have := ih _ _ (Inv_addMatch tb E e.1 e.2 h)
    simpa using this

theorem foldl_pairs_eq_foldl_edges (G : PairwiseMatches) (tb : TracksBuilder) :
    G.foldl
        (fun tb0 pair =>
          pair.2.foldl
            (fun tb1 m =>
              tb1.addMatch (pair.1.1, KeypointId.mk pair.1.2.2 m.1)
                (pair.1.2.1, KeypointId.mk pair.1.2.2 m.2))
            tb0)
        tb
      = (PairwiseMatches.edges G).foldl (fun tb1 e => tb1.addMatch e.1 e.2) tb := by
  induction G generalizing tb with
  | nil => rfl
  | cons pair rest ih =>
    rw [List.foldl_cons, ih]
    unfold PairwiseMatches.edges
    rw [List.flatMap_cons, List.foldl_append, List.foldl_map]

/-- What `Build` returns when it succeeds is the forest left by the
ingestion of the edges of the input. -/
theorem Inv_of_Build_eq_ok (uninit : EImageDescriberType) (G : PairwiseMatches)
    (tb : TracksBuilder) (h : Build uninit G = Except.ok tb) :
    Inv tb (PairwiseMatches.edges G) := by
  unfold Build at h
  split_ifs at h
  simp only [Except.ok.injEq] at h
  rw [← h, foldl_pairs_eq_foldl_edges]
  have := Inv_foldl_addMatch (PairwiseMatches.edges G) empty [] Inv_empty
  simpa using this

/-- `Build` succeeds exactly on the inputs that are not malformed. -/
theorem Build_eq_ok_iff_WellFormed (uninit : EImageDescriberType) (G : PairwiseMatches) :
    (∃ tb, Build uninit G = Except.ok tb) ↔ PairwiseMatches.WellFormed uninit G := by
  unfold Build PairwiseMatches.WellFormed
  constructor
  · rintro ⟨tb, h⟩
    split_ifs at h with h1 h2
    intro pair hpair
    constructor
    · intro heq
      apply h1
      rw [List.any_eq_true]
      exact ⟨pair, hpair, by simpa using heq⟩
    · intro hne heq
      apply h2
      rw [List.any_eq_true]
      refine ⟨pair, hpair, ?_⟩
      cases hp : pair.2 with
      | nil => exact absurd hp hne
      | cons m ms => simp [heq]
  · intro hwf
    have h1 : ¬ G.any (fun pair => decide (pair.1.1 = pair.1.2.1)) = true := by
      rw [List.any_eq_true]
      rintro ⟨pair, hpair, heq⟩
      exact (hwf pair hpair).1 (by simpa using heq)
    have h2 : ¬ G.any
        (fun pair => decide (pair.1.2.2 = uninit) && !pair.2.isEmpty) = true := by
      rw [List.any_eq_true]
      rintro ⟨pair, hpair, heq⟩
      simp only [Bool.and_eq_true, decide_eq_true_eq, Bool.not_eq_true',
        List.isEmpty_eq_false] at heq
      exact (hwf pair hpair).2 heq.2 heq.1
    rw [if_neg h1, if_neg h2]
    exact ⟨_, rfl⟩

/-- Claim C11, as amended.  For every input that is not malformed (no pair
with equal views, no matches of the uninitialised descriptor kind), `Build`
returns ok with a forest in which, for all node keys `u` and `v` occurring in
the input, `u` and `v` are in the same union-find class iff they are
connected in the undirected graph whose edges are the input matches. -/
theorem Build_transitive_closure (uninit : EImageDescriberType) (G : PairwiseMatches)
    (hwf : PairwiseMatches.WellFormed uninit G) :
    ∃ tb, Build uninit G = Except.ok tb
      ∧ ∀ u v, PairwiseMatches.occurs G u → PairwiseMatches.occurs G v →
          (sameClass tb u v ↔ PairwiseMatches.Connected G u v) := by
  obtain ⟨tb, hb⟩ := (Build_eq_ok_iff_WellFormed uninit G).mpr hwf
  refine ⟨tb, hb, ?_⟩
  obtain ⟨_, _, herased, hends, hequiv⟩ := Inv_of_Build_eq_ok uninit G tb hb
  have hnode : ∀ u, PairwiseMatches.occurs G u → u ∈ tb.nodes := by
    rintro u ⟨e, he, hu | hu⟩
    · rw [hu]; exact (hends e he).1
    · rw [hu]; exact (hends e he).2
  intro u v hu hv
  unfold sameClass PairwiseMatches.Connected
  rw [herased, hequiv u (hnode u hu) v (hnode v hv)]
  constructor
  · rintro ⟨_, _, h, _⟩; exact h
  · intro h; exact ⟨hnode u hu, hnode v hv, h, List.not_mem_nil _⟩

/-- Witness of `Build_transitive_closure`: the chain of the scenario S1 of
the spec, whose two ends are in one class. -/
theorem Build_transitive_closure_witness :
    PairwiseMatches.WellFormed 0 [((1, 2, 1), [(10, 20)]), ((2, 3, 1), [(20, 30)])]
    ∧ ∃ tb, Build 0 [((1, 2, 1), [(10, 20)]), ((2, 3, 1), [(20, 30)])] = Except.ok tb
      ∧ sameClass tb (1, KeypointId.mk 1 10) (3, KeypointId.mk 1 30) := by
  refine ⟨by decide, ?_⟩
  obtain ⟨tb, hb, h⟩ := Build_transitive_closure 0
    [((1, 2, 1), [(10, 20)]), ((2, 3, 1), [(20, 30)])] (by decide)
  refine ⟨tb, hb, (h _ _ ?_ ?_).mpr ?_⟩
  · exact ⟨((1, KeypointId.mk 1 10), (2, KeypointId.mk 1 20)), by decide, Or.inl rfl⟩
  · exact ⟨((2, KeypointId.mk 1 20), (3, KeypointId.mk 1 30)), by decide, Or.inr rfl⟩
  · exact Relation.EqvGen.trans _ (2, KeypointId.mk 1 20) _
      (Relation.EqvGen.rel _ _ (by decide)) (Relation.EqvGen.rel _ _ (by decide))

/-- Claim C11 as stated fails on a malformed input.  With a pair whose two
views are equal, `Build` fails and leaves no forest, although the two ends of
its match occur in the input and are connected in its graph. -/
theorem Build_fails_on_self_pair :
    Build 0 [((1, 1, 1), [(10, 20)])] = Except.error BuildError.selfPair
    ∧ PairwiseMatches.occurs [((1, 1, 1), [(10, 20)])] (1, KeypointId.mk 1 10)
    ∧ PairwiseMatches.occurs [((1, 1, 1), [(10, 20)])] (1, KeypointId.mk 1 20)
    ∧ PairwiseMatches.Connected [((1, 1, 1), [(10, 20)])]
        (1, KeypointId.mk 1 10) (1, KeypointId.mk 1 20)
    ∧ ¬ ∃ tb, Build 0 [((1, 1, 1), [(10, 20)])] = Except.ok tb
        ∧ (sameClass tb (1, KeypointId.mk 1 10) (1, KeypointId.mk 1 20)
          ↔ PairwiseMatches.Connected [((1, 1, 1), [(10, 20)])]
              (1, KeypointId.mk 1 10) (1, KeypointId.mk 1 20)) := by
  have hfail : Build 0 [((1, 1, 1), [(10, 20)])] = Except.error BuildError.selfPair := rfl
  refine ⟨hfail, ?_, ?_, ?_, ?_⟩
  · exact ⟨((1, KeypointId.mk 1 10), (1, KeypointId.mk 1 20)), by decide, Or.inl rfl⟩
  · exact ⟨((1, KeypointId.mk 1 10), (1, KeypointId.mk 1 20)), by decide, Or.inr rfl⟩
  · exact Relation.EqvGen.rel _ _ (by decide)
  · rintro ⟨tb, hb, _⟩
    rw [hfail] at hb
    cases hb

/-! ## Filtering of the classes -/

theorem hasViewConflict_eq_false_iff (seen : StdSet) (c : List IndexedFeaturePair) :
    hasViewConflict seen c = false
      ↔ (∀ m ∈ c, m.1 ∉ seen) ∧ (c.map Prod.fst).Nodup := by
  induction c generalizing seen with
  | nil => simp [hasViewConflict]
  | cons m rest ih =>
    unfold hasViewConflict
    by_cases hm : m.1 ∈ seen
    · rw [if_pos hm]
      simp only [Bool.true_eq_false, false_iff, not_and]
      intro hall
      exact absurd hm (hall m (List.mem_cons_self _ _))
    · rw [if_neg hm, ih]
      simp only [List.mem_cons, forall_eq_or_imp, List.map_cons, List.nodup_cons,
        List.mem_map, StdSet.mem_insert, not_or, not_exists, not_and]
      constructor
      · rintro ⟨hall, hnodup⟩
        refine ⟨⟨hm, fun x hx => (hall x hx).2⟩, ?_, hnodup⟩
        intro x hx heq
        exact (hall x hx).1 heq
      · rintro ⟨⟨_, hall⟩, hfresh, hnodup⟩
        exact ⟨fun x hx => ⟨fun heq => hfresh x hx heq, hall x hx⟩, hnodup⟩

theorem members_Filter (n : Nat) (b : Bool) (tb : TracksBuilder) (r : Nat) :
    members (Filter n b tb) r = members tb r := rfl

theorem mem_roots (tb : TracksBuilder) (r : Nat) :
    r ∈ roots tb ↔ r < tb.nodes.length ∧ tb.tracksUF.rootD r = r ∧ r ∉ tb.erased := by
  unfold roots
  simp only [List.mem_filter, List.mem_range, Bool.and_eq_true, decide_eq_true_eq]

theorem mem_roots_Filter (n : Nat) (b : Bool) (tb : TracksBuilder) (r : Nat) :
    r ∈ roots (Filter n b tb)
      ↔ r ∈ roots tb
        ∧ ¬ (members tb r).length < n ∧ hasViewConflict [] (members tb r) = false := by
  have hF : r ∈ roots (Filter n b tb)
      ↔ r < tb.nodes.length ∧ tb.tracksUF.rootD r = r
        ∧ r ∉ tb.erased ++ tb.roots.filter
            (fun r => decide ((tb.members r).length < n)
              || hasViewConflict [] (tb.members r)) :=
    mem_roots (Filter n b tb) r
  rw [hF, mem_roots]
  simp only [List.mem_append, List.mem_filter, not_or, not_and, Bool.or_eq_true,
    decide_eq_true_eq, Bool.not_eq_true, mem_roots]
  constructor
  · rintro ⟨hlt, hroot, hne, hnot⟩
    exact ⟨⟨hlt, hroot, hne⟩, hnot ⟨hlt, hroot, hne⟩⟩
  · rintro ⟨⟨hlt, hroot, hne⟩, h1, h2⟩
    exact ⟨hlt, hroot, hne, fun _ => ⟨h1, h2⟩⟩

theorem members_nodup (tb : TracksBuilder) (h : tb.nodes.Nodup) (r : Nat) :
    (members tb r).Nodup := by
  unfold members
  exact List.Nodup.filter _ h

/-- Claim C12.  For every built forest and every `minLength`, a class of the
forest survives `Filter(minLength)` iff it has at least `minLength` members
and no two of its members share a view id; the surviving classes are classes
of the forest before the call with their members unchanged; and a class of
size one is handled like any other (it survives iff `minLength` is at most
1). -/
theorem Filter_keeps_exactly_valid_classes (uninit : EImageDescriberType)
    (G : PairwiseMatches) (tb : TracksBuilder) (minLength : Nat) (parallel : Bool)
    (hbuilt : Build uninit G = Except.ok tb) :
    (∀ c, c ∈ classes (Filter minLength parallel tb)
        ↔ c ∈ classes tb ∧ minLength ≤ c.length
          ∧ ∀ x ∈ c, ∀ y ∈ c, x.1 = y.1 → x = y)
    ∧ (∀ r ∈ roots (Filter minLength parallel tb),
        r ∈ roots tb ∧ members (Filter minLength parallel tb) r = members tb r)
    ∧ (∀ x, [x] ∈ classes tb →
        ([x] ∈ classes (Filter minLength parallel tb) ↔ minLength ≤ 1)) := by
  have hnodup : tb.nodes.Nodup := (Inv_of_Build_eq_ok uninit G tb hbuilt).2.1
  have hkeep : ∀ r, (¬ (members tb r).length < minLength
      ∧ hasViewConflict [] (members tb r) = false)
      ↔ (minLength ≤ (members tb r).length
        ∧ ∀ x ∈ members tb r, ∀ y ∈ members tb r, x.1 = y.1 → x = y) := by
    intro r
    rw [hasViewConflict_eq_false_iff,
      List.nodup_map_iff_inj_on (members_nodup tb hnodup r)]
    simp only [List.not_mem_nil, not_false_eq_true, implies_true, true_and, not_lt]
  have hclasses : ∀ c, c ∈ classes (Filter minLength parallel tb)
      ↔ c ∈ classes tb ∧ minLength ≤ c.length
        ∧ ∀ x ∈ c, ∀ y ∈ c, x.1 = y.1 → x = y := by
    intro c
    unfold classes
    simp only [List.mem_map, mem_roots_Filter, members_Filter]
    constructor
    · rintro ⟨r, ⟨hr, hk⟩, rfl⟩
      exact ⟨⟨r, hr, rfl⟩, (hkeep r).mp hk⟩
    · rintro ⟨⟨r, hr, rfl⟩, hk⟩
      exact ⟨r, ⟨hr, (hkeep r).mpr hk⟩, rfl⟩
  refine ⟨hclasses, ?_, ?_⟩
  · intro r hr
    exact ⟨((mem_roots_Filter minLength parallel tb r).mp hr).1, rfl⟩
  · intro x hx
    rw [hclasses]
    constructor
    · rintro ⟨_, hlen, _⟩
      simpa using hlen
    · intro hlen
      refine ⟨hx, by simpa using hlen, ?_⟩
      intro a ha b hb _
      rw [List.mem_singleton] at ha hb
      rw [ha, hb]

/-- Witness of `Filter_keeps_exactly_valid_classes`: the forest built from
the scenario S2 of the spec (one feature of view 1 matched to two features of
view 2), filtered with the minimal length 2. -/
theorem Filter_keeps_exactly_valid_classes_witness :
    ∃ tb, Build 0 [((1, 2, 1), [(10, 20), (10, 21)])] = Except.ok tb
      ∧ ∀ c, c ∈ classes (Filter 2 true tb)
          ↔ c ∈ classes tb ∧ 2 ≤ c.length ∧ ∀ x ∈ c, ∀ y ∈ c, x.1 = y.1 → x = y := by
  obtain ⟨tb, hb⟩ := (Build_eq_ok_iff_WellFormed 0
    [((1, 2, 1), [(10, 20), (10, 21)])]).mpr (by decide)
  exact ⟨tb, hb,
    (Filter_keeps_exactly_valid_classes 0 [((1, 2, 1), [(10, 20), (10, 21)])] tb 2 true
      hb).1⟩

end TracksBuilder

end track
end aliceVision
